import Mathlib

/-!
Verification of the dioxus_style CSS scoping engine.

Strings are modelled as `List Char`.  The definitions below are shallow
embeddings of the functions in `src/dioxus_style_macro/src/style_parser.rs`,
`src/dioxus_style_macro/src/hash.rs` and
`src/dioxus_style/src/runtime_injector.rs`.  Rust's character classification
functions (`is_whitespace`, `is_alphanumeric`, `is_alphabetic`) are modelled
by the corresponding Lean `Char` predicates, which agree with Rust on the
ASCII range exercised by every property considered here.
-/

set_option maxHeartbeats 1000000

namespace DioxusStyle

/-- Models Rust `str::trim`: removes leading and trailing whitespace. -/
def trim (s : List Char) : List Char :=
  ((s.dropWhile Char.isWhitespace).reverse.dropWhile Char.isWhitespace).reverse

/-- Models the comment-skip loop shared by `parse_css_rules` and `minify_css`:
scan forward until the `*/` closer (consuming it) or the end of input. -/
def skipComment : List Char → List Char
  | [] => []
  | c :: rest => if c = '*' ∧ rest.head? = some '/' then rest.tail else skipComment rest

/-- Fuel-driven implementation of comment stripping; the fuel only bounds the
recursion depth (one unit per consumed character) and is irrelevant as soon
as it is at least the input length (`stripCommentsF_irrel`). -/
def stripCommentsF : Nat → List Char → List Char
  | 0, _ => []
  | _ + 1, [] => []
  | f + 1, c :: rest =>
    if c = '/' ∧ rest.head? = some '*' then stripCommentsF f (skipComment rest.tail)
    else c :: stripCommentsF f rest

/-- Characters of the input that are not inside a comment span, in order.
This is the stream of characters that `parse_css_rules` feeds to its
brace-tracking state machine (comments are checked before anything else
on every iteration of its loop). -/
def stripComments (l : List Char) : List Char := stripCommentsF l.length l

/-- Fuel-driven implementation of `parse_css_rules`; fuel-irrelevant once the
fuel is at least the input length. -/
def parseCssRulesF : Nat → List Char → Int → List Char → List (List Char)
  | 0, _, _, _ => []
  | _ + 1, [], _, _ => []
  | f + 1, c :: rest, depth, cur =>
    if c = '/' ∧ rest.head? = some '*' then
      parseCssRulesF f (skipComment rest.tail) depth cur
    else if c = '{' then
      parseCssRulesF f rest (depth + 1) (cur ++ [c])
    else if c = '}' then
      if depth - 1 = 0 then
        let t := trim (cur ++ [c])
        if t = [] then parseCssRulesF f rest (depth - 1) []
        else t :: parseCssRulesF f rest (depth - 1) []
      else parseCssRulesF f rest (depth - 1) (cur ++ [c])
    else parseCssRulesF f rest depth (cur ++ [c])

/-- Embedding of `parse_css_rules` (style_parser.rs, lines 44-84): a single
scan with a brace-depth counter, skipping comments, emitting the trimmed
buffer as one rule whenever the depth returns to zero on a `}`. -/
def parseCssRulesAux (l : List Char) (depth : Int) (cur : List Char) : List (List Char) :=
  parseCssRulesF l.length l depth cur

def parseCssRules (css : List Char) : List (List Char) := parseCssRulesAux css 0 []

/-- Comment-free variant of the rule splitter: the same brace-tracking state
machine but with no comment handling.  Used to express that comment spans
never contribute characters to a rule. -/
def parseRulesNCAux : List Char → Int → List Char → List (List Char)
  | [], _, _ => []
  | c :: rest, depth, cur =>
    if c = '{' then
      parseRulesNCAux rest (depth + 1) (cur ++ [c])
    else if c = '}' then
      if depth - 1 = 0 then
        let t := trim (cur ++ [c])
        if t = [] then parseRulesNCAux rest (depth - 1) []
        else t :: parseRulesNCAux rest (depth - 1) []
      else parseRulesNCAux rest (depth - 1) (cur ++ [c])
    else parseRulesNCAux rest depth (cur ++ [c])

/-- Identifier characters accepted while consuming a class or id name
(`is_alphanumeric() || '-' || '_'` in style_parser.rs). -/
def identChar (c : Char) : Bool := c.isAlphanum || c = '-' || c = '_'

/-- Characters accepted while consuming an element name
(`is_alphanumeric() || '-'`, no underscore, style_parser.rs line 220). -/
def elemChar (c : Char) : Bool := c.isAlphanum || c = '-'

/-- Models the `[` branch of `scope_single_selector`: copy every character
verbatim up to and including the closing `]` (or to the end of input). -/
def copyBracket : List Char → List Char × List Char
  | [] => ([], [])
  | c :: rest =>
    if c = ']' then ([c], rest)
    else
      let p := copyBracket rest
      (c :: p.1, p.2)

/-- Literal `[data-scope="` emitted by the element branch. -/
def attrOpen : List Char := "[data-scope=\"".data

/-- Literal `"]` emitted by the element branch. -/
def attrClose : List Char := "\"]".data

/-- Result of one dispatch step of `scope_single_selector`: the characters
emitted, the class names recorded, the remaining input and the new
`at_start` flag. -/
structure StepOut where
  out : List Char
  names : List (List Char)
  rest : List Char
  atStart : Bool
deriving Repr, DecidableEq

/-- One iteration of the `scope_single_selector` character dispatch
(style_parser.rs, lines 136-242): `c` is the character just consumed, `rest`
the remaining input, `st` the current `at_start` flag. -/
def sssStep (scope : List Char) (c : Char) (rest : List Char) (st : Bool) : StepOut :=
  if c = '.' then
    let name := rest.takeWhile identChar
    { out := if name = [] then [] else '.' :: (scope ++ '_' :: name)
      names := if name = [] then [] else [name]
      rest := rest.dropWhile identChar
      atStart := false }
  else if c = '#' then
    let name := rest.takeWhile identChar
    { out := if name = [] then [] else '#' :: (scope ++ '_' :: name)
      names := []
      rest := rest.dropWhile identChar
      atStart := false }
  else if c = ' ' ∨ c = '>' ∨ c = '+' ∨ c = '~' then
    { out := [c], names := [], rest := rest.dropWhile (· = ' '), atStart := true }
  else if c = ':' then
    { out := [c], names := [], rest := rest, atStart := false }
  else if c = '[' then
    { out := c :: (copyBracket rest).1, names := [], rest := (copyBracket rest).2
      atStart := false }
  else if c.isAlpha ∧ st = true then
    { out := (c :: rest.takeWhile elemChar) ++ attrOpen ++ scope ++ attrClose
      names := []
      rest := rest.dropWhile elemChar
      atStart := false }
  else
    { out := [c], names := [], rest := rest, atStart := false }

/-- Fuel-driven implementation of `scope_single_selector`; fuel-irrelevant
once the fuel is at least the input length. -/
def scopeSingleSelectorF (scope : List Char) : Nat → List Char → Bool → List Char × List (List Char)
  | 0, _, _ => ([], [])
  | _ + 1, [], _ => ([], [])
  | f + 1, c :: rest, st =>
    let s := sssStep scope c rest st
    let r := scopeSingleSelectorF scope f s.rest s.atStart
    (s.out ++ r.1, s.names ++ r.2)

/-- Embedding of `scope_single_selector` (style_parser.rs, lines 131-246):
returns the rewritten selector together with the list of class names
recorded into the class-name set. -/
def scopeSingleSelector (scope : List Char) (l : List Char) (st : Bool) :
    List Char × List (List Char) :=
  scopeSingleSelectorF scope l.length l st

/-- Embedding of Rust's `str::split(',')` on a character list: splits at every
comma, keeping empty pieces, never returning an empty list of pieces. -/
def splitComma : List Char → List (List Char)
  | [] => [[]]
  | c :: rest =>
    if c = ',' then [] :: splitComma rest
    else
      match splitComma rest with
      | [] => [[c]]
      | p :: ps => (c :: p) :: ps

/-- Models `Vec::join(sep)`. -/
def joinSep (sep : List Char) : List (List Char) → List Char
  | [] => []
  | [x] => x
  | x :: y :: xs => x ++ sep ++ joinSep sep (y :: xs)

/-- Embedding of `scope_selector` (style_parser.rs, lines 114-126): fast path
for a comma-free selector, otherwise split on every comma, trim and rewrite
each piece, and join with `", "`. -/
def scopeSelector (selector scope : List Char) : List Char × List (List Char) :=
  if ',' ∈ selector then
    let parts := (splitComma selector).map fun s => scopeSingleSelector scope (trim s) true
    (joinSep [',', ' '] (parts.map Prod.fst), (parts.map Prod.snd).flatten)
  else
    scopeSingleSelector scope selector true

/-- The declaration text of a rule: everything up to the last `}` when one
exists (`rest.rfind('}')` in scope_rule), otherwise the whole remainder,
trimmed either way. -/
def declsOf (rest : List Char) : List Char :=
  if '}' ∈ rest then trim ((rest.reverse.dropWhile (· ≠ '}')).tail).reverse
  else trim rest

/-- Embedding of `scope_rule` (style_parser.rs, lines 88-110): split the rule
at the first `{`, take the declarations up to the last `}` (or to the end
when there is none), rewrite the selector and reassemble with exactly one
space around each brace. -/
def scopeRule (rule scope : List Char) : Option (List Char × List (List Char)) :=
  if trim rule = [] then none
  else
    match (trim rule).dropWhile (· ≠ '{') with
    | [] => none
    | _ :: rest =>
      some ((scopeSelector (trim ((trim rule).takeWhile (· ≠ '{'))) scope).1 ++
              ([' ', '{', ' '] ++ declsOf rest ++ [' ', '}']),
            (scopeSelector (trim ((trim rule).takeWhile (· ≠ '{'))) scope).2)

/-- Fuel-driven implementation of `minify_css`; fuel-irrelevant once the fuel
is at least the input length. -/
def minifyF : Nat → List Char → Bool → List Char → List Char
  | 0, _, _, acc => acc
  | _ + 1, [], _, acc => acc
  | f + 1, c :: rest, lws, acc =>
    if c = '/' ∧ rest.head? = some '*' then minifyF f (skipComment rest.tail) lws acc
    else if c.isWhitespace then
      if lws = false ∧ acc ≠ [] then
        match acc.getLast? with
        | some lc =>
          if lc = '{' ∨ lc = '}' ∨ lc = ':' ∨ lc = ';' ∨ lc = ',' then minifyF f rest lws acc
          else minifyF f rest true (acc ++ [' '])
        | none => minifyF f rest lws acc
      else minifyF f rest lws acc
    else minifyF f rest false (acc ++ [c])

/-- Embedding of the `minify_css` loop (style_parser.rs, lines 250-285): skip
comments, collapse whitespace runs to a single space, and suppress even that
space right after `{`, `}`, `:`, `;` or `,`; all other characters pass
through.  `lws` is `last_was_space`, `acc` the output built so far. -/
def minifyAux (l : List Char) (lws : Bool) (acc : List Char) : List Char :=
  minifyF l.length l lws acc

def minifyCss (css : List Char) : List Char := minifyAux css false []

/-- Result of `parse_and_scope`: the scoped text, and the class names
collected (modelling the `HashSet` by the list of values inserted into it;
claims about the set are claims about membership in this list). -/
structure ScopedCss where
  scopedStr : List Char
  classNames : List (List Char)
deriving Repr, DecidableEq

/-- Models the rule-processing loop of `parse_and_scope` (style_parser.rs,
lines 23-34): each rule the scoper accepts is appended to the output, with a
newline separator when not minifying, and the whole buffer is minified at
the end when `minify` is set. -/
def assembleRules (rules : List (List Char)) (scope : List Char) (minify : Bool) : ScopedCss :=
  let pieces := rules.filterMap fun r => scopeRule r scope
  let body := (pieces.map fun p => p.1 ++ (if minify then [] else ['\n'])).flatten
  { scopedStr := if minify then minifyCss body else body
    classNames := (pieces.map Prod.snd).flatten }

/-- Embedding of `parse_and_scope` (style_parser.rs, lines 15-40). -/
def parseAndScope (css scope : List Char) (minify : Bool) : ScopedCss :=
  assembleRules (parseCssRules css) scope minify

/-- Association-list lookup modelling `HashMap::get`. -/
def lookupAssoc (k : List Char) : List (List Char × List Char) → Option (List Char)
  | [] => none
  | (k', v) :: rest => if k' = k then some v else lookupAssoc k rest

/-- Replaces the value stored for an existing key, modelling
`Entry::Occupied(e) => e.insert(v)`. -/
def updateAssoc (k v : List Char) : List (List Char × List Char) → List (List Char × List Char)
  | [] => []
  | (k', v') :: rest => if k' = k then (k, v) :: rest else (k', v') :: updateAssoc k v rest

/-- Embedding of `StyleRegistry` (runtime_injector.rs, lines 16-21): the
`HashMap` is modelled as an association list, `order` keeps first-seen
insertion order. -/
structure StyleRegistry where
  styles : List (List Char × List Char)
  order : List (List Char)
deriving Repr, DecidableEq

def StyleRegistry.empty : StyleRegistry := ⟨[], []⟩

/-- Embedding of `StyleRegistry::register` (runtime_injector.rs, lines
39-53): replace the text of an existing token in place, or insert a new
token and append it to the order sequence. -/
def StyleRegistry.register (r : StyleRegistry) (hash css : List Char) : StyleRegistry :=
  if (lookupAssoc hash r.styles).isSome then
    { styles := updateAssoc hash css r.styles, order := r.order }
  else
    { styles := r.styles ++ [(hash, css)], order := r.order ++ [hash] }

/-- Embedding of `StyleRegistry::get_all_styles` (runtime_injector.rs, lines
57-79): empty string when no entry exists, otherwise each token's text in
order, each followed by one newline. -/
def StyleRegistry.getAllStyles (r : StyleRegistry) : List Char :=
  if r.order = [] then []
  else
    (r.order.map fun h =>
      match lookupAssoc h r.styles with
      | some css => css ++ ['\n']
      | none => []).flatten

/-- Runs a sequence of `register` calls on an empty registry. -/
def runRegisters (ops : List (List Char × List Char)) : StyleRegistry :=
  ops.foldl (fun r p => r.register p.1 p.2) StyleRegistry.empty

/-! ### Identifier generator (hash.rs) -/

def hashPrime : Nat := 1099511628211

def hashSeed : Nat := 14695981039346656037

/-- One mixing step of the modelled 64-bit hash. -/
def hashStep (h : Nat) (c : Char) : Nat := ((h ^^^ c.toNat) * hashPrime) % 2 ^ 64

/-- Modelled from the spec: `generate_hash` calls `xxh3_64` from the external
`xxhash_rust` crate, whose source is not part of this repository.  The spec
requires only a deterministic 64-bit non-cryptographic mixing hash of the
input bytes ("a fast mixing hash such as a 64-bit variant of xxHash").  It
is modelled here as an FNV-1a-style fold over the characters: every step is
a bijection of the 64-bit state for a fixed input character, which gives
the mixing and sensitivity behaviour the spec relies on. -/
def xxh3_64 (s : List Char) : Nat := s.foldl hashStep hashSeed

/-- The base-62 digit alphabet of `encode_base62` (hash.rs, line 37). -/
def base62Chars : List Char := "0123456789abcdefghijklmnopqrstuvwxyzABCDEFGHIJKLMNOPQRSTUVWXYZ".data

def base62Char (n : Nat) : Char := base62Chars.getD n '0'

/-- Fuel-driven implementation of the digit-extraction loop of
`encode_base62`; fuel-irrelevant once the fuel is at least `n`. -/
def encodeBase62LoopF : Nat → Nat → List Char
  | 0, _ => []
  | f + 1, n => if n = 0 then [] else base62Char (n % 62) :: encodeBase62LoopF f (n / 62)

/-- The digit-extraction loop of `encode_base62` (hash.rs, lines 46-49):
least-significant digit first. -/
def encodeBase62Loop (n : Nat) : List Char := encodeBase62LoopF n n

/-- Embedding of `encode_base62` (hash.rs, lines 36-54): zero is the single
digit `"0"`, otherwise the digits are emitted least-significant first and
reversed. -/
def encodeBase62 (n : Nat) : List Char :=
  if n = 0 then ['0'] else (encodeBase62Loop n).reverse

/-- Embedding of `generate_hash` (hash.rs, lines 16-30). -/
def generateHash (content : List Char) (filePath : Option (List Char)) : List Char :=
  let input :=
    match filePath with
    | some p => (p ++ "::".data) ++ content
    | none => content
  "sc_".data ++ encodeBase62 (xxh3_64 input)

/-- Modelled from the spec: the first-seen order of a token sequence
("first-seen-token order", section 4.7).  `seen` is the set of tokens
already encountered. -/
def firstSeenAux (seen : List (List Char)) : List (List Char) → List (List Char)
  | [] => []
  | k :: rest => if k ∈ seen then firstSeenAux seen rest else k :: firstSeenAux (seen ++ [k]) rest

def firstSeen (l : List (List Char)) : List (List Char) := firstSeenAux [] l

/-- Modelled from the spec: the most recently registered text for a token
("each token contributing only its most recently registered text"). -/
def lastTextOpt (t : List Char) (ops : List (List Char × List Char)) : Option (List Char) :=
  (ops.reverse.find? (fun p => p.1 = t)).map Prod.snd

/-- Modelled from the spec, section 4.7: `getAll` must reproduce rules in
first-seen-token order, each token contributing its most recently
registered text, each followed by a newline. -/
def specGetAll (ops : List (List Char × List Char)) : List Char :=
  ((firstSeen (ops.map Prod.fst)).map (fun t => (lastTextOpt t ops).getD [] ++ ['\n'])).flatten

/-- Modelled from the spec: the value of a base-62 digit character
(`0-9`, then lowercase, then uppercase). -/
def base62Val (c : Char) : Nat :=
  if c.isDigit then c.toNat - '0'.toNat
  else if c.isLower then c.toNat - 'a'.toNat + 10
  else c.toNat - 'A'.toNat + 36

/-- Modelled from the spec: the numeric value of a base-62 digit string,
most-significant digit first. -/
def decodeBase62 (l : List Char) : Nat := l.foldl (fun acc c => acc * 62 + base62Val c) 0

/-- Modelled from the claim: split a selector only on commas at bracket
depth zero, treating `[...]` spans as opaque. -/
def splitTopLevelAux : List Char → Nat → List Char → List (List Char)
  | [], _, cur => [cur]
  | c :: rest, depth, cur =>
    if c = ',' ∧ depth = 0 then cur :: splitTopLevelAux rest depth []
    else
      splitTopLevelAux rest
        (if c = '[' then depth + 1 else if c = ']' then depth - 1 else depth) (cur ++ [c])

def splitTopLevel (l : List Char) : List (List Char) := splitTopLevelAux l 0 []

theorem skipComment_length_le (l : List Char) : (skipComment l).length ≤ l.length := by
  induction l with
  | nil => simp [skipComment]
  | cons c rest ih =>
    simp only [skipComment]
    split
    · cases rest <;> simp <;> omega
    · exact Nat.le_succ_of_le ih

theorem skipComment_tail_length_lt (c : Char) (rest : List Char)
    (h : rest.head? = some '*') : (skipComment rest.tail).length < (c :: rest).length := by
  cases rest with
  | nil => simp at h
  | cons b t =>
    simp only [List.tail_cons, List.length_cons]
    have := skipComment_length_le t
    omega

theorem stripCommentsF_irrel : ∀ f g : Nat, ∀ l : List Char,
    l.length ≤ f → l.length ≤ g → stripCommentsF f l = stripCommentsF g l := by
  intro f
  induction f with
  | zero =>
    intro g l hf _
    have : l = [] := List.eq_nil_of_length_eq_zero (Nat.le_zero.mp hf)
    subst this
    cases g <;> rfl
  | succ f ih =>
    intro g l hf hg
    cases l with
    | nil => cases g <;> rfl
    | cons c rest =>
      cases g with
      | zero => simp at hg
      | succ g' =>
        simp only [List.length_cons, Nat.add_le_add_iff_right] at hf hg
        simp only [stripCommentsF]
        split
        · rename_i h
          have hlt := skipComment_tail_length_lt c rest h.2
          simp only [List.length_cons] at hlt
          exact ih g' _ (by omega) (by omega)
        · rw [ih g' rest hf hg]

theorem stripComments_cons (c : Char) (rest : List Char) :
    stripComments (c :: rest) =
      if c = '/' ∧ rest.head? = some '*' then stripComments (skipComment rest.tail)
      else c :: stripComments rest := by
  show stripCommentsF (rest.length + 1) (c :: rest) = _
  simp only [stripCommentsF]
  split
  · rename_i h
    have hlt := skipComment_tail_length_lt c rest h.2
    simp only [List.length_cons] at hlt
    exact stripCommentsF_irrel _ _ _ (by omega) le_rfl
  · rfl

theorem parseCssRulesF_irrel : ∀ f g : Nat, ∀ l : List Char, ∀ depth : Int, ∀ cur : List Char,
    l.length ≤ f → l.length ≤ g →
    parseCssRulesF f l depth cur = parseCssRulesF g l depth cur := by
  intro f
  induction f with
  | zero =>
    intro g l depth cur hf _
    have : l = [] := List.eq_nil_of_length_eq_zero (Nat.le_zero.mp hf)
    subst this
    cases g <;> rfl
  | succ f ih =>
    intro g l depth cur hf hg
    cases l with
    | nil => cases g <;> rfl
    | cons c rest =>
      cases g with
      | zero => simp at hg
      | succ g' =>
        simp only [List.length_cons, Nat.add_le_add_iff_right] at hf hg
        simp only [parseCssRulesF]
        split
        · rename_i h
          have hlt := skipComment_tail_length_lt c rest h.2
          simp only [List.length_cons] at hlt
          exact ih g' _ _ _ (by omega) (by omega)
        · repeat' split
          all_goals rw [ih g' rest _ _ hf hg]

theorem dropWhile_length_le (p : Char → Bool) (l : List Char) :
    (l.dropWhile p).length ≤ l.length := by
  induction l with
  | nil => simp
  | cons c rest ih =>
    simp only [List.dropWhile_cons]
    split
    · exact Nat.le_succ_of_le ih
    · simp

theorem copyBracket_append (l : List Char) : (copyBracket l).1 ++ (copyBracket l).2 = l := by
  induction l with
  | nil => simp [copyBracket]
  | cons c rest ih =>
    simp only [copyBracket]
    split
    · simp
    · simpa using ih

theorem copyBracket_length_le (l : List Char) : (copyBracket l).2.length ≤ l.length := by
  induction l with
  | nil => simp [copyBracket]
  | cons c rest ih =>
    simp only [copyBracket]
    split
    · simp
    · simpa using Nat.le_succ_of_le ih

theorem sssStep_rest_length_le (scope : List Char) (c : Char) (rest : List Char) (st : Bool) :
    (sssStep scope c rest st).rest.length ≤ rest.length := by
  simp only [sssStep]
  repeat' split
  all_goals
    simp [dropWhile_length_le, copyBracket_length_le]

theorem scopeSingleSelectorF_irrel (scope : List Char) : ∀ f g : Nat, ∀ l : List Char, ∀ st : Bool,
    l.length ≤ f → l.length ≤ g →
    scopeSingleSelectorF scope f l st = scopeSingleSelectorF scope g l st := by
  intro f
  induction f with
  | zero =>
    intro g l st hf _
    have : l = [] := List.eq_nil_of_length_eq_zero (Nat.le_zero.mp hf)
    subst this
    cases g <;> rfl
  | succ f ih =>
    intro g l st hf hg
    cases l with
    | nil => cases g <;> rfl
    | cons c rest =>
      cases g with
      | zero => simp at hg
      | succ g' =>
        simp only [List.length_cons, Nat.add_le_add_iff_right] at hf hg
        have hr := sssStep_rest_length_le scope c rest st
        simp only [scopeSingleSelectorF]
        rw [ih g' _ _ (by omega) (by omega)]

theorem scopeSingleSelector_nil (scope : List Char) (st : Bool) :
    scopeSingleSelector scope [] st = ([], []) := rfl

theorem scopeSingleSelector_cons (scope : List Char) (c : Char) (rest : List Char) (st : Bool) :
    scopeSingleSelector scope (c :: rest) st =
      ((sssStep scope c rest st).out ++
         (scopeSingleSelector scope (sssStep scope c rest st).rest
           (sssStep scope c rest st).atStart).1,
       (sssStep scope c rest st).names ++
         (scopeSingleSelector scope (sssStep scope c rest st).rest
           (sssStep scope c rest st).atStart).2) := by
  have hr := sssStep_rest_length_le scope c rest st
  show scopeSingleSelectorF scope (rest.length + 1) (c :: rest) st = _
  simp only [scopeSingleSelectorF]
  rw [scopeSingleSelectorF_irrel scope rest.length _ _ _ (by omega) le_rfl]
  rfl

theorem minifyF_irrel : ∀ f g : Nat, ∀ l : List Char, ∀ lws : Bool, ∀ acc : List Char,
    l.length ≤ f → l.length ≤ g → minifyF f l lws acc = minifyF g l lws acc := by
  intro f
  induction f with
  | zero =>
    intro g l lws acc hf _
    have : l = [] := List.eq_nil_of_length_eq_zero (Nat.le_zero.mp hf)
    subst this
    cases g <;> rfl
  | succ f ih =>
    intro g l lws acc hf hg
    cases l with
    | nil => cases g <;> rfl
    | cons c rest =>
      cases g with
      | zero => simp at hg
      | succ g' =>
        simp only [List.length_cons, Nat.add_le_add_iff_right] at hf hg
        simp only [minifyF]
        split
        · rename_i h
          have hlt := skipComment_tail_length_lt c rest h.2
          simp only [List.length_cons] at hlt
          exact ih g' _ _ _ (by omega) (by omega)
        · repeat' first
            | split
            | exact ih g' rest _ _ hf hg
          all_goals exact ih g' rest _ _ hf hg

/-! ### Style registry (runtime_injector.rs) -/

theorem encodeBase62LoopF_irrel : ∀ f g n : Nat,
    n ≤ f → n ≤ g → encodeBase62LoopF f n = encodeBase62LoopF g n := by
  intro f
  induction f with
  | zero =>
    intro g n hf _
    have : n = 0 := Nat.le_zero.mp hf
    subst this
    cases g <;> rfl
  | succ f ih =>
    intro g n hf hg
    cases g with
    | zero =>
      have : n = 0 := Nat.le_zero.mp hg
      subst this
      rfl
    | succ g' =>
      simp only [encodeBase62LoopF]
      split
      · rfl
      · rename_i h
        have h1 : n / 62 < n := Nat.div_lt_self (Nat.pos_of_ne_zero h) (by omega)
        rw [ih g' (n / 62) (by omega) (by omega)]

theorem encodeBase62Loop_eq (n : Nat) :
    encodeBase62Loop n = if n = 0 then [] else base62Char (n % 62) :: encodeBase62Loop (n / 62) := by
  show encodeBase62LoopF n n = _
  cases hn : n with
  | zero => rfl
  | succ m =>
    simp only [encodeBase62LoopF, Nat.succ_ne_zero, if_false]
    rw [encodeBase62LoopF_irrel m ((m + 1) / 62) ((m + 1) / 62)
      (by have := Nat.div_lt_self (Nat.succ_pos m) (show 1 < 62 by omega); omega) le_rfl]
    rfl

/-! ### Basic counting and trimming lemmas -/

theorem count_takeWhile_eq_zero {p : Char → Bool} {c : Char} (hc : p c = false)
    (l : List Char) : (l.takeWhile p).count c = 0 := by
  rw [List.count_eq_zero]
  intro hmem
  have := List.mem_takeWhile_imp hmem
  rw [hc] at this
  exact Bool.false_ne_true this

theorem count_dropWhile_eq {p : Char → Bool} {c : Char} (hc : p c = false)
    (l : List Char) : (l.dropWhile p).count c = l.count c := by
  conv_rhs => rw [← List.takeWhile_append_dropWhile p l]
  rw [List.count_append, count_takeWhile_eq_zero hc]
  omega

theorem count_trim_eq {c : Char} (hc : c.isWhitespace = false) (l : List Char) :
    (trim l).count c = l.count c := by
  unfold trim
  rw [List.count_reverse, count_dropWhile_eq hc, List.count_reverse, count_dropWhile_eq hc]

theorem dropWhile_eq_self_of_head {p : Char → Bool} : ∀ {l : List Char},
    (∀ a, l.head? = some a → p a = false) → l.dropWhile p = l
  | [], _ => rfl
  | a :: l, h => by
    have := h a rfl
    simp [List.dropWhile_cons, this]

theorem head_dropWhile_false (p : Char → Bool) : ∀ (l : List Char) (a : Char),
    (l.dropWhile p).head? = some a → p a = false := by
  intro l
  induction l with
  | nil => intro a h; simp at h
  | cons b rest ih =>
    intro a h
    rw [List.dropWhile_cons] at h
    split at h
    · exact ih a h
    · rename_i hb
      simp only [List.head?_cons, Option.some_inj] at h
      subst h
      exact Bool.not_eq_true _ ▸ (Bool.eq_false_iff.mpr hb)

/-- Splitting a trailing non-whitespace character through `trim`. -/
theorem trim_append_singleton (cur : List Char) (c : Char) (hc : c.isWhitespace = false) :
    trim (cur ++ [c]) = (cur.dropWhile Char.isWhitespace) ++ [c] := by
  unfold trim
  rw [List.dropWhile_append]
  split
  · rename_i hemp
    simp only [List.isEmpty_iff] at hemp
    have h1 : List.dropWhile Char.isWhitespace [c] = [c] := by
      simp [List.dropWhile_cons, hc]
    rw [h1, hemp]
    simp [List.dropWhile_cons, hc]
  · rw [List.reverse_append]
    simp only [List.reverse_cons, List.reverse_nil, List.nil_append, List.singleton_append]
    rw [List.dropWhile_cons, hc]
    simp

theorem trim_nil : trim [] = [] := rfl

theorem trim_idem (s : List Char) : trim (trim s) = trim s := by
  unfold trim
  set s₁ := s.dropWhile Char.isWhitespace with hs₁
  set s₃ := s₁.reverse.dropWhile Char.isWhitespace with hs₃
  have h₁ : s₃.reverse.dropWhile Char.isWhitespace = s₃.reverse := by
    apply dropWhile_eq_self_of_head
    intro a ha
    rcases List.eq_nil_or_concat s₃ with h | ⟨t, b, hb⟩
    · rw [h] at ha; simp at ha
    · rw [List.concat_eq_append] at hb
      rw [hb, List.reverse_concat] at ha
      simp only [List.head?_cons, Option.some_inj] at ha
      rw [← ha]
      -- the last element of s₃ is the last element of s₁.reverse, i.e. the head of s₁
      have hmem : s₃ <:+ s₁.reverse := by
        rw [hs₃]
        exact ⟨_, List.takeWhile_append_dropWhile _ _⟩
      obtain ⟨t', ht'⟩ := hmem
      have hlast : s₁.reverse.getLast? = some b := by
        rw [← ht', hb, ← List.append_assoc]
        rw [List.getLast?_append_of_ne_nil _ (by simp)]
        simp
      rw [List.getLast?_reverse] at hlast
      rw [hs₁] at hlast
      exact head_dropWhile_false Char.isWhitespace s b hlast
  rw [h₁, List.reverse_reverse]
  have h₂ : List.dropWhile Char.isWhitespace s₃ = s₃ := by
    apply dropWhile_eq_self_of_head
    intro a ha
    rw [hs₃] at ha
    exact head_dropWhile_false Char.isWhitespace s₁.reverse a ha
  rw [h₂]

/-! ### Rule splitter: comment separation, per-rule invariants, decomposition -/

theorem trim_append_brace (cur : List Char) :
    trim (cur ++ ['}']) = (cur.dropWhile Char.isWhitespace) ++ ['}'] :=
  trim_append_singleton cur '}' rfl

theorem stripComments_nil : stripComments [] = [] := rfl

/-- The rule splitter factors through comment stripping: the characters fed
to its brace state machine are exactly the comment-free stream. -/
theorem parseCssRulesF_strip : ∀ f : Nat, ∀ cs : List Char, ∀ d : Int, ∀ cur : List Char,
    cs.length ≤ f → parseCssRulesF f cs d cur = parseRulesNCAux (stripComments cs) d cur := by
  intro f
  induction f with
  | zero =>
    intro cs d cur hf
    have : cs = [] := List.eq_nil_of_length_eq_zero (Nat.le_zero.mp hf)
    subst this
    rfl
  | succ f ih =>
    intro cs d cur hf
    cases cs with
    | nil => rfl
    | cons c rest =>
      simp only [List.length_cons, Nat.add_le_add_iff_right] at hf
      rw [stripComments_cons]
      simp only [parseCssRulesF]
      split
      · rename_i h
        have hlt := skipComment_tail_length_lt c rest h.2
        simp only [List.length_cons] at hlt
        exact ih _ _ _ (by omega)
      · simp only [parseRulesNCAux]
        split
        · exact ih rest _ _ hf
        · split
          · split
            · split <;> rw [ih rest _ _ hf]
            · rw [ih rest _ _ hf]
          · rw [ih rest _ _ hf]

theorem count_append_singleton (l : List Char) (c a : Char) :
    (l ++ [c]).count a = l.count a + if c = a then 1 else 0 := by
  rw [List.count_append]
  simp [List.count_cons]

theorem parseRulesNCAux_props : ∀ (cs : List Char) (d : Int) (cur : List Char),
    d = (cur.count '{' : Int) - (cur.count '}' : Int) →
    ∀ r ∈ parseRulesNCAux cs d cur,
      (∃ u, r = u ++ ['}']) ∧ r.count '{' = r.count '}' ∧ r ≠ [] ∧ trim r = r := by
  intro cs
  induction cs with
  | nil => intro d cur _ r hr; simp [parseRulesNCAux] at hr
  | cons c rest ih =>
    intro d cur hinv r hr
    simp only [parseRulesNCAux] at hr
    by_cases h1 : c = '{'
    · rw [if_pos h1] at hr
      refine ih _ _ ?_ r hr
      subst h1
      rw [count_append_singleton, count_append_singleton]
      simp
      omega
    · rw [if_neg h1] at hr
      by_cases h2 : c = '}'
      · rw [if_pos h2] at hr
        by_cases h3 : d - 1 = 0
        · rw [if_pos h3] at hr
          have htne : trim (cur ++ [c]) ≠ [] := by
            subst h2
            rw [trim_append_brace]
            simp
          rw [if_neg htne] at hr
          rcases List.mem_cons.mp hr with hre | hrr
          · subst hre
            subst h2
            have hcnt1 : (trim (cur ++ ['}'])).count '{' = cur.count '{' := by
              rw [count_trim_eq (by decide), count_append_singleton]
              simp
            have hcnt2 : (trim (cur ++ ['}'])).count '}' = cur.count '}' + 1 := by
              rw [count_trim_eq (by decide), count_append_singleton]
              simp
            refine ⟨⟨cur.dropWhile Char.isWhitespace, trim_append_brace cur⟩, ?_, htne, trim_idem _⟩
            rw [hcnt1, hcnt2]
            omega
          · refine ih _ _ ?_ r hrr
            simpa using h3
        · rw [if_neg h3] at hr
          refine ih _ _ ?_ r hr
          subst h2
          rw [count_append_singleton, count_append_singleton]
          simp
          omega
      · rw [if_neg h2] at hr
        refine ih _ _ ?_ r hr
        rw [count_append_singleton, count_append_singleton]
        simp [h1, h2]
        omega

theorem parseRulesNCAux_decomp : ∀ (cs : List Char) (d : Int) (cur : List Char),
    ∃ (us : List (List Char)) (leftover : List Char), cur ++ cs = us.flatten ++ leftover ∧
      parseRulesNCAux cs d cur = us.map trim := by
  intro cs
  induction cs with
  | nil =>
    intro d cur
    exact ⟨[], cur, by simp, rfl⟩
  | cons c rest ih =>
    intro d cur
    by_cases h1 : c = '{'
    · obtain ⟨us, lo, he, hp⟩ := ih (d + 1) (cur ++ [c])
      refine ⟨us, lo, ?_, ?_⟩
      · rw [List.append_assoc] at he
        simpa using he
      · simp only [parseRulesNCAux, if_pos h1]
        exact hp
    · by_cases h2 : c = '}'
      · by_cases h3 : d - 1 = 0
        · obtain ⟨us, lo, he, hp⟩ := ih (d - 1) []
          simp only [List.nil_append] at he
          have htne : trim (cur ++ [c]) ≠ [] := by
            subst h2
            rw [trim_append_brace]
            simp
          refine ⟨(cur ++ [c]) :: us, lo, ?_, ?_⟩
          · rw [List.flatten_cons, List.append_assoc, ← he]
            simp
          · simp only [parseRulesNCAux, if_neg h1, if_pos h2, if_pos h3, if_neg htne,
              List.map_cons]
            exact List.cons_eq_cons.mpr ⟨rfl, hp⟩
        · obtain ⟨us, lo, he, hp⟩ := ih (d - 1) (cur ++ [c])
          refine ⟨us, lo, ?_, ?_⟩
          · rw [List.append_assoc] at he
            simpa using he
          · simp only [parseRulesNCAux, if_neg h1, if_pos h2, if_neg h3]
            exact hp
      · obtain ⟨us, lo, he, hp⟩ := ih d (cur ++ [c])
        refine ⟨us, lo, ?_, ?_⟩
        · rw [List.append_assoc] at he
          simpa using he
        · simp only [parseRulesNCAux, if_neg h1, if_neg h2]
          exact hp

theorem parseCssRules_eq_nc (css : List Char) :
    parseCssRules css = parseRulesNCAux (stripComments css) 0 [] :=
  parseCssRulesF_strip css.length css 0 [] le_rfl

theorem parseCssRules_props (css : List Char) :
    ∀ r ∈ parseCssRules css,
      (∃ u, r = u ++ ['}']) ∧ r.count '{' = r.count '}' ∧ r ≠ [] ∧ trim r = r := by
  rw [parseCssRules_eq_nc]
  exact parseRulesNCAux_props _ 0 [] (by simp)

/-! ### Selector rewriter: brace preservation -/

theorem takeWhile_eq_nil_dropWhile {p : Char → Bool} {l : List Char}
    (h : l.takeWhile p = []) : l.dropWhile p = l := by
  conv_rhs => rw [← List.takeWhile_append_dropWhile p l]
  rw [h, List.nil_append]

theorem count_takeWhile_add_dropWhile (p : Char → Bool) (l : List Char) (a : Char) :
    (l.takeWhile p).count a + (l.dropWhile p).count a = l.count a := by
  conv_rhs => rw [← List.takeWhile_append_dropWhile p l]
  rw [List.count_append]

/-- One rewriting step neither creates nor destroys braces, as long as the
scope token itself contains none: the braces in the emitted text plus those
in the unconsumed input are exactly the braces of the whole input. -/
theorem sssStep_count (scope : List Char) (c : Char) (rest : List Char) (st : Bool) (β : Char)
    (hβ : β = '{' ∨ β = '}') (hs : β ∉ scope) :
    (sssStep scope c rest st).out.count β + (sssStep scope c rest st).rest.count β
      = (c :: rest).count β := by
  have hscope : scope.count β = 0 := List.count_eq_zero.mpr hs
  have hattr1 : attrOpen.count β = 0 := by
    rcases hβ with hb | hb <;> subst hb <;> decide
  have hattr2 : attrClose.count β = 0 := by
    rcases hβ with hb | hb <;> subst hb <;> decide
  have hβdot : ¬ ('.' = β) := by rcases hβ with hb | hb <;> subst hb <;> decide
  have hβhash : ¬ ('#' = β) := by rcases hβ with hb | hb <;> subst hb <;> decide
  have hβcolon : ¬ (':' = β) := by rcases hβ with hb | hb <;> subst hb <;> decide
  have hβus : ¬ ('_' = β) := by rcases hβ with hb | hb <;> subst hb <;> decide
  have hβbr : ¬ ('[' = β) := by rcases hβ with hb | hb <;> subst hb <;> decide
  have hspace : (decide (β = ' ')) = false := by
    rcases hβ with hb | hb <;> subst hb <;> decide
  by_cases h1 : c = '.'
  · simp only [sssStep, if_pos h1]
    by_cases hn : rest.takeWhile identChar = []
    · rw [if_pos hn, takeWhile_eq_nil_dropWhile hn]
      simp [List.count_cons, h1, hβdot]
    · rw [if_neg hn]
      rw [List.count_cons, List.count_cons, List.count_append, List.count_cons,
        ← count_takeWhile_add_dropWhile identChar rest β, hscope]
      simp [h1, hβdot, hβus]
  · simp only [sssStep, if_neg h1]
    by_cases h2 : c = '#'
    · simp only [if_pos h2]
      by_cases hn : rest.takeWhile identChar = []
      · rw [if_pos hn, takeWhile_eq_nil_dropWhile hn]
        simp [List.count_cons, h2, hβhash]
      · rw [if_neg hn]
        rw [List.count_cons, List.count_cons, List.count_append, List.count_cons,
          ← count_takeWhile_add_dropWhile identChar rest β, hscope]
        simp [h2, hβhash, hβus]
    · simp only [if_neg h2]
      by_cases h3 : c = ' ' ∨ c = '>' ∨ c = '+' ∨ c = '~'
      · simp only [if_pos h3]
        rw [List.count_cons, List.count_cons, count_dropWhile_eq hspace]
        have hcne : ¬ (c = β) := by
          rcases hβ with hb | hb <;> subst hb <;>
            rcases h3 with h | h | h | h <;> subst h <;> decide
        simp [hcne]
      · simp only [if_neg h3]
        by_cases h4 : c = ':'
        · simp only [if_pos h4]
          simp [List.count_cons, h4, hβcolon]
        · simp only [if_neg h4]
          by_cases h5 : c = '['
          · simp only [if_pos h5]
            rw [List.count_cons, List.count_cons]
            have hcb := copyBracket_append rest
            have hsum : (copyBracket rest).1.count β + (copyBracket rest).2.count β
                = rest.count β := by
              rw [← List.count_append, hcb]
            simp [h5, hβbr]
            exact hsum
          · simp only [if_neg h5]
            by_cases h6 : c.isAlpha = true ∧ st = true
            · simp only [if_pos h6]
              have hcne : ¬ (c = β) := by
                intro hcc
                rcases hβ with hb | hb <;> subst hb <;> subst hcc <;>
                  exact absurd h6.1 (by decide)
              rw [List.count_cons, List.count_append, List.count_append, List.count_append,
                hscope, hattr1, hattr2, List.count_cons,
                ← count_takeWhile_add_dropWhile elemChar rest β]
              simp [hcne]
            · simp only [if_neg h6]
              simp [List.count_cons]
              omega

theorem scopeSingleSelectorF_count (scope : List Char) (β : Char)
    (hβ : β = '{' ∨ β = '}') (hs : β ∉ scope) :
    ∀ f : Nat, ∀ l : List Char, ∀ st : Bool, l.length ≤ f →
    (scopeSingleSelectorF scope f l st).1.count β = l.count β := by
  intro f
  induction f with
  | zero =>
    intro l st hf
    have : l = [] := List.eq_nil_of_length_eq_zero (Nat.le_zero.mp hf)
    subst this
    rfl
  | succ f ih =>
    intro l st hf
    cases l with
    | nil => rfl
    | cons c rest =>
      simp only [List.length_cons, Nat.add_le_add_iff_right] at hf
      have hr := sssStep_rest_length_le scope c rest st
      simp only [scopeSingleSelectorF]
      rw [List.count_append]
      rw [ih _ _ (by omega)]
      exact sssStep_count scope c rest st β hβ hs

theorem scopeSingleSelector_count (scope : List Char) (β : Char)
    (hβ : β = '{' ∨ β = '}') (hs : β ∉ scope) (l : List Char) (st : Bool) :
    (scopeSingleSelector scope l st).1.count β = l.count β :=
  scopeSingleSelectorF_count scope β hβ hs l.length l st le_rfl

/-! ### Split and join of selector lists -/

theorem splitComma_ne_nil (l : List Char) : splitComma l ≠ [] := by
  cases l with
  | nil => simp [splitComma]
  | cons c rest =>
    simp only [splitComma]
    split
    · simp
    · cases h : splitComma rest <;> simp

theorem splitComma_count_sum (l : List Char) (β : Char) (hβ : ¬ (',' = β)) :
    ((splitComma l).map (List.count β)).sum = l.count β := by
  induction l with
  | nil => simp [splitComma]
  | cons c rest ih =>
    simp only [splitComma]
    by_cases hc : c = ','
    · rw [if_pos hc]
      simp only [List.map_cons, List.sum_cons, List.count_nil]
      rw [ih, List.count_cons]
      simp [hc, hβ]
    · rw [if_neg hc]
      obtain ⟨p, ps, hps⟩ : ∃ p ps, splitComma rest = p :: ps := by
        cases h : splitComma rest with
        | nil => exact absurd h (splitComma_ne_nil rest)
        | cons p ps => exact ⟨p, ps, rfl⟩
      rw [hps]
      rw [hps] at ih
      simp only [List.map_cons, List.sum_cons] at ih ⊢
      rw [List.count_cons, List.count_cons]
      omega

theorem joinSep_count (sep : List Char) (L : List (List Char)) (β : Char)
    (hsep : sep.count β = 0) :
    (joinSep sep L).count β = (L.map (List.count β)).sum := by
  induction L with
  | nil => simp [joinSep]
  | cons x xs ih =>
    cases xs with
    | nil => simp [joinSep]
    | cons y ys =>
      simp only [joinSep]
      rw [List.count_append, List.count_append, hsep, ih]
      simp only [List.map_cons, List.sum_cons]
      omega

theorem scopeSelector_count (sel scope : List Char) (β : Char)
    (hβ : β = '{' ∨ β = '}') (hs : β ∉ scope) :
    (scopeSelector sel scope).1.count β = sel.count β := by
  have hw : β.isWhitespace = false := by
    rcases hβ with hb | hb <;> subst hb <;> decide
  have hβc : ¬ (',' = β) := by
    rcases hβ with hb | hb <;> subst hb <;> decide
  have hsepc : ([',', ' '] : List Char).count β = 0 := by
    rcases hβ with hb | hb <;> subst hb <;> decide
  unfold scopeSelector
  split
  · rw [joinSep_count _ _ _ hsepc, List.map_map, List.map_map]
    have hcongr :
        ((splitComma sel).map ((List.count β ∘ Prod.fst) ∘ fun s => scopeSingleSelector scope (trim s) true)).sum
          = ((splitComma sel).map (List.count β)).sum := by
      congr 1
      apply List.map_congr_left
      intro s _
      show ((scopeSingleSelector scope (trim s) true).1).count β = s.count β
      rw [scopeSingleSelector_count scope β hβ hs, count_trim_eq hw]
    rw [hcongr, splitComma_count_sum sel β hβc]
  · exact scopeSingleSelector_count scope β hβ hs sel true

/-! ### Rule scoper: shape and brace balance -/

theorem takeWhile_all_append {p : Char → Bool} {pre : List Char}
    (hpre : ∀ x ∈ pre, p x = true) (l : List Char) :
    (pre ++ l).takeWhile p = pre ++ l.takeWhile p := by
  induction pre with
  | nil => simp
  | cons b bs ih =>
    simp only [List.cons_append, List.takeWhile_cons]
    rw [hpre b (by simp)]
    simp only [if_true]
    rw [ih (fun x hx => hpre x (by simp [hx]))]

theorem dropWhile_all_append {p : Char → Bool} {pre : List Char}
    (hpre : ∀ x ∈ pre, p x = true) (l : List Char) :
    (pre ++ l).dropWhile p = l.dropWhile p := by
  induction pre with
  | nil => simp
  | cons b bs ih =>
    simp only [List.cons_append, List.dropWhile_cons]
    rw [hpre b (by simp)]
    simp only [if_true]
    exact ih (fun x hx => hpre x (by simp [hx]))

theorem declsOf_concat (d : List Char) : declsOf (d ++ ['}']) = trim d := by
  have h1 : ('}' : Char) ∈ d ++ ['}'] := by simp
  rw [declsOf, if_pos h1, List.reverse_concat]
  simp [List.dropWhile_cons]

/-- Shape of a successfully scoped rule whose trimmed text decomposes at the
first `{` and the last `}`:  the output is exactly
`scoped selector ++ " { " ++ trimmed declarations ++ " }"`. -/
theorem scopeRule_decomp (rule scope pre d : List Char)
    (hd : trim rule = pre ++ '{' :: (d ++ ['}'])) (hpre : '{' ∉ pre) :
    scopeRule rule scope =
      some ((scopeSelector (trim pre) scope).1 ++
              ([' ', '{', ' '] ++ trim d ++ [' ', '}']),
            (scopeSelector (trim pre) scope).2) := by
  have hprop : ∀ x ∈ pre, (fun y => decide (y ≠ '{')) x = true := by
    intro x hx
    simp only [decide_eq_true_eq, ne_eq]
    intro hcontra
    exact hpre (hcontra ▸ hx)
  have hdrop : (trim rule).dropWhile (· ≠ '{') = '{' :: (d ++ ['}']) := by
    rw [hd, dropWhile_all_append hprop]
    simp [List.dropWhile_cons]
  have htake : (trim rule).takeWhile (· ≠ '{') = pre := by
    rw [hd, takeWhile_all_append hprop]
    simp [List.takeWhile_cons]
  have hne : trim rule ≠ [] := by
    rw [hd]
    simp
  unfold scopeRule
  rw [if_neg hne, hdrop, htake]
  dsimp only
  rw [declsOf_concat]

theorem mem_first_split (a : Char) : ∀ l : List Char, a ∈ l →
    ∃ pre rest, l = pre ++ a :: rest ∧ a ∉ pre := by
  intro l
  induction l with
  | nil => intro h; simp at h
  | cons b bs ih =>
    intro h
    by_cases hb : b = a
    · exact ⟨[], bs, by rw [hb]; rfl, by simp⟩
    · have hmem : a ∈ bs := by
        rcases List.mem_cons.mp h with h1 | h1
        · exact absurd h1.symm hb
        · exact h1
      obtain ⟨pre, rest, h1, h2⟩ := ih hmem
      refine ⟨b :: pre, rest, by rw [h1]; rfl, ?_⟩
      intro hmem2
      rcases List.mem_cons.mp hmem2 with h3 | h3
      · exact hb h3.symm
      · exact h2 h3

theorem scopeRule_balance (rule scope : List Char)
    (hbal : rule.count '{' = rule.count '}')
    (hend : ∃ u, rule = u ++ ['}'])
    (htrim : trim rule = rule)
    (hso : '{' ∉ scope) (hsc : '}' ∉ scope) :
    ∀ p : List Char × List (List Char), scopeRule rule scope = some p →
      p.1.count '{' = p.1.count '}' := by
  intro p hp
  obtain ⟨u, hu⟩ := hend
  have hmemc : ('}' : Char) ∈ rule := by rw [hu]; simp
  have hcount : 0 < rule.count '{' := by
    rw [hbal]
    exact List.count_pos_iff.mpr hmemc
  have hmemo : ('{' : Char) ∈ rule := List.count_pos_iff.mp hcount
  obtain ⟨pre, rest, hsplit, hpre⟩ := mem_first_split '{' rule hmemo
  -- the remainder after the first `{` is nonempty and ends with `}`
  have hrend : ∃ d, rest = d ++ ['}'] := by
    have hlast : rule.getLast? = some '}' := by
      rw [hu, List.getLast?_concat]
    rcases List.eq_nil_or_concat rest with hnil | ⟨t, b, hcat⟩
    · subst hnil
      rw [hsplit] at hlast
      rw [List.getLast?_append_of_ne_nil _ (by simp)] at hlast
      simp at hlast
    · rw [List.concat_eq_append] at hcat
      refine ⟨t, ?_⟩
      rw [hsplit, hcat] at hlast
      have hassoc : pre ++ '{' :: (t ++ [b]) = (pre ++ '{' :: t) ++ [b] := by simp
      rw [hassoc, List.getLast?_concat] at hlast
      simp only [Option.some_inj] at hlast
      rw [hcat, hlast]
  obtain ⟨d, hd⟩ := hrend
  have hdecomp : trim rule = pre ++ '{' :: (d ++ ['}']) := by
    rw [htrim, hsplit, hd]
  rw [scopeRule_decomp rule scope pre d hdecomp hpre] at hp
  injection hp with hp1
  subst hp1
  have hp1 : ((scopeSelector (trim pre) scope).1 ++
        ([' ', '{', ' '] ++ trim d ++ [' ', '}']),
      (scopeSelector (trim pre) scope).2).1
      = (scopeSelector (trim pre) scope).1 ++
        ([' ', '{', ' '] ++ trim d ++ [' ', '}']) := rfl
  -- count the braces on both sides
  have hselo := scopeSelector_count (trim pre) scope '{' (Or.inl rfl) hso
  have hselc := scopeSelector_count (trim pre) scope '}' (Or.inr rfl) hsc
  rw [count_trim_eq (by decide)] at hselo
  rw [count_trim_eq (by decide)] at hselc
  have hpre0 : pre.count '{' = 0 := List.count_eq_zero.mpr hpre
  have hbal2 : pre.count '{' + (1 + d.count '{') = pre.count '}' + (d.count '}' + 1) := by
    have h1 : rule.count '{' = pre.count '{' + (1 + d.count '{') := by
      rw [hsplit, hd, List.count_append, List.count_cons, List.count_append]
      simp
      try omega
    have h2 : rule.count '}' = pre.count '}' + (d.count '}' + 1) := by
      rw [hsplit, hd, List.count_append, List.count_cons, List.count_append]
      simp
      try omega
    omega
  rw [hp1]
  simp only [List.count_append]
  rw [hselo, hselc, count_trim_eq (show ('{' : Char).isWhitespace = false by decide),
    count_trim_eq (show ('}' : Char).isWhitespace = false by decide)]
  have e1 : List.count '{' ([' ', '{', ' '] : List Char) = 1 := by decide
  have e2 : List.count '{' ([' ', '}'] : List Char) = 0 := by decide
  have e3 : List.count '}' ([' ', '{', ' '] : List Char) = 0 := by decide
  have e4 : List.count '}' ([' ', '}'] : List Char) = 1 := by decide
  omega

/-! ### Document-level brace balance and minification length -/

theorem count_flatten_eq (β : Char) (L : List (List Char)) :
    L.flatten.count β = (L.map (List.count β)).sum := by
  induction L with
  | nil => simp
  | cons x xs ih =>
    simp only [List.flatten_cons, List.count_append, List.map_cons, List.sum_cons, ih]

theorem assembleRules_balance (rules : List (List Char)) (scope : List Char)
    (hso : '{' ∉ scope) (hsc : '}' ∉ scope)
    (hrules : ∀ r ∈ rules,
      (∃ u, r = u ++ ['}']) ∧ r.count '{' = r.count '}' ∧ r ≠ [] ∧ trim r = r) :
    (assembleRules rules scope false).scopedStr.count '{'
      = (assembleRules rules scope false).scopedStr.count '}' := by
  unfold assembleRules
  simp only [Bool.false_eq_true, if_false]
  rw [count_flatten_eq, count_flatten_eq, List.map_map, List.map_map]
  congr 1
  apply List.map_congr_left
  intro p hp
  obtain ⟨r, hr, hrp⟩ := List.mem_filterMap.mp hp
  obtain ⟨hu, hbal, hne, htrim⟩ := hrules r hr
  have := scopeRule_balance r scope hbal hu htrim hso hsc p hrp
  show (p.1 ++ ['\n']).count '{' = (p.1 ++ ['\n']).count '}'
  rw [List.count_append, List.count_append, this]
  have d1 : List.count '{' (['\n'] : List Char) = 0 := by decide
  have d2 : List.count '}' (['\n'] : List Char) = 0 := by decide
  omega

theorem parseAndScope_balance (css scope : List Char)
    (hso : '{' ∉ scope) (hsc : '}' ∉ scope) :
    (parseAndScope css scope false).scopedStr.count '{'
      = (parseAndScope css scope false).scopedStr.count '}' :=
  assembleRules_balance (parseCssRules css) scope hso hsc (parseCssRules_props css)

theorem minifyF_length : ∀ f : Nat, ∀ l : List Char, ∀ lws : Bool, ∀ acc : List Char,
    l.length ≤ f → (minifyF f l lws acc).length ≤ acc.length + l.length := by
  intro f
  induction f with
  | zero =>
    intro l lws acc hf
    have : l = [] := List.eq_nil_of_length_eq_zero (Nat.le_zero.mp hf)
    subst this
    simp [minifyF]
  | succ f ih =>
    intro l lws acc hf
    cases l with
    | nil => simp [minifyF]
    | cons c rest =>
      simp only [List.length_cons, Nat.add_le_add_iff_right] at hf
      simp only [minifyF, List.length_cons]
      split
      · rename_i h
        have hlt := skipComment_tail_length_lt c rest h.2
        simp only [List.length_cons] at hlt
        have := ih (skipComment rest.tail) lws acc (by omega)
        omega
      · split
        · split
          · split
            · split
              · have := ih rest lws acc hf
                omega
              · have := ih rest true (acc ++ [' ']) hf
                simp only [List.length_append, List.length_cons, List.length_nil] at this
                omega
            · have := ih rest lws acc hf
              omega
          · have := ih rest lws acc hf
            omega
        · have := ih rest false (acc ++ [c]) hf
          simp only [List.length_append, List.length_cons, List.length_nil] at this
          omega

theorem minifyCss_length (l : List Char) : (minifyCss l).length ≤ l.length := by
  have := minifyF_length l.length l false [] le_rfl
  simpa [minifyCss, minifyAux] using this

theorem parseAndScope_minify_length (css scope : List Char) :
    (parseAndScope css scope true).scopedStr.length
      ≤ (parseAndScope css scope false).scopedStr.length := by
  unfold parseAndScope assembleRules
  simp only [Bool.false_eq_true, if_false, if_pos]
  set pieces := (parseCssRules css).filterMap (fun r => scopeRule r scope) with hp
  calc (minifyCss ((pieces.map fun p => p.1 ++ (if true then [] else ['\n'])).flatten)).length
      ≤ ((pieces.map fun p => p.1 ++ (if true then [] else ['\n'])).flatten).length :=
        minifyCss_length _
    _ ≤ ((pieces.map fun p => p.1 ++ ['\n']).flatten).length := by
        rw [List.length_flatten, List.length_flatten, List.map_map, List.map_map]
        apply List.sum_le_sum
        intro p _
        simp

/-! ### Malformed rules are dropped silently -/

theorem scopeRule_none_of_no_brace (rule scope : List Char) (h : '{' ∉ trim rule) :
    scopeRule rule scope = none := by
  unfold scopeRule
  by_cases ht : trim rule = []
  · rw [if_pos ht]
  · rw [if_neg ht]
    have hd : (trim rule).dropWhile (· ≠ '{') = [] := by
      rw [List.dropWhile_eq_nil_iff]
      intro x hx
      simp only [decide_eq_true_eq, ne_eq]
      intro hc
      exact h (hc ▸ hx)
    rw [hd]

theorem assembleRules_drop (pre post : List (List Char)) (r scope : List Char) (m : Bool)
    (h : scopeRule r scope = none) :
    assembleRules (pre ++ r :: post) scope m = assembleRules (pre ++ post) scope m := by
  unfold assembleRules
  rw [List.filterMap_append, List.filterMap_append, List.filterMap_cons, h]

/-! ### Class names recorded by the rewriter -/

theorem sssStep_names (scope : List Char) (c : Char) (rest : List Char) (st : Bool) :
    ∀ n ∈ (sssStep scope c rest st).names, n ≠ [] ∧ ∀ ch ∈ n, identChar ch = true := by
  intro n hn
  simp only [sssStep] at hn
  split_ifs at hn
  all_goals simp only [List.mem_singleton, List.not_mem_nil] at hn
  all_goals subst hn
  all_goals exact ⟨by assumption, fun ch hch => List.mem_takeWhile_imp hch⟩

theorem scopeSingleSelectorF_names (scope : List Char) :
    ∀ f : Nat, ∀ l : List Char, ∀ st : Bool,
    ∀ n ∈ (scopeSingleSelectorF scope f l st).2, n ≠ [] ∧ ∀ ch ∈ n, identChar ch = true := by
  intro f
  induction f with
  | zero => intro l st n hn; simp [scopeSingleSelectorF] at hn
  | succ f ih =>
    intro l st n hn
    cases l with
    | nil => simp [scopeSingleSelectorF] at hn
    | cons c rest =>
      simp only [scopeSingleSelectorF] at hn
      rcases List.mem_append.mp hn with h | h
      · exact sssStep_names scope c rest st n h
      · exact ih _ _ n h

theorem scopeSingleSelector_names (scope l : List Char) (st : Bool) :
    ∀ n ∈ (scopeSingleSelector scope l st).2, n ≠ [] ∧ ∀ ch ∈ n, identChar ch = true :=
  scopeSingleSelectorF_names scope l.length l st

theorem scopeSelector_names (sel scope : List Char) :
    ∀ n ∈ (scopeSelector sel scope).2, n ≠ [] ∧ ∀ ch ∈ n, identChar ch = true := by
  intro n hn
  unfold scopeSelector at hn
  split at hn
  · obtain ⟨l, hl, hnl⟩ := List.mem_flatten.mp hn
    rw [List.map_map] at hl
    obtain ⟨s, _, hs⟩ := List.mem_map.mp hl
    have : n ∈ (scopeSingleSelector scope (trim s) true).2 := by
      rw [← hs] at hnl
      exact hnl
    exact scopeSingleSelector_names scope (trim s) true n this
  · exact scopeSingleSelector_names scope sel true n hn

theorem scopeRule_names (rule scope : List Char) (p : List Char × List (List Char))
    (hp : scopeRule rule scope = some p) :
    ∀ n ∈ p.2, n ≠ [] ∧ ∀ ch ∈ n, identChar ch = true := by
  unfold scopeRule at hp
  split at hp
  · exact absurd hp (by simp)
  · split at hp
    · exact absurd hp (by simp)
    · simp only [Option.some_inj] at hp
      intro n hn
      rw [← hp] at hn
      exact scopeSelector_names _ scope n hn

theorem parseAndScope_names (css scope : List Char) (minify : Bool) :
    ∀ n ∈ (parseAndScope css scope minify).classNames,
      n ≠ [] ∧ ∀ ch ∈ n, identChar ch = true := by
  intro n hn
  unfold parseAndScope assembleRules at hn
  simp only at hn
  obtain ⟨l, hl, hnl⟩ := List.mem_flatten.mp hn
  obtain ⟨p, hp, hpl⟩ := List.mem_map.mp hl
  obtain ⟨r, _, hr⟩ := List.mem_filterMap.mp hp
  rw [← hpl] at hnl
  exact scopeRule_names r scope p hr n hnl

/-! ### Registry refinement -/

theorem lookupAssoc_updateAssoc (k v t : List Char) : ∀ L : List (List Char × List Char),
    lookupAssoc t (updateAssoc k v L) =
      if t = k then (match lookupAssoc k L with | some _ => some v | none => none)
      else lookupAssoc t L := by
  intro L
  induction L with
  | nil =>
    simp only [updateAssoc, lookupAssoc]
    split <;> rfl
  | cons p rest ih =>
    obtain ⟨k', v'⟩ := p
    by_cases h1 : k' = k
    · subst h1
      simp only [updateAssoc, if_pos rfl, lookupAssoc]
      by_cases h2 : t = k'
      · subst h2
        simp
      · have h2' : ¬ (k' = t) := fun hc => h2 hc.symm
        simp [h2, h2']
    · simp only [updateAssoc, if_neg h1, lookupAssoc]
      by_cases h2 : k' = t
      · subst h2
        have h3 : ¬ (k' = k) := h1
        simp [fun hc : k' = k => h1 hc, h1]
      · rw [if_neg h2, ih]
        by_cases h3 : t = k
        · rw [if_pos h3, if_pos h3]
        · rw [if_neg h3, if_neg h3]
          show lookupAssoc t rest = if k' = t then some v' else lookupAssoc t rest
          rw [if_neg h2]

theorem lookupAssoc_append_singleton (t k v : List Char) (L : List (List Char × List Char)) :
    lookupAssoc t (L ++ [(k, v)]) =
      match lookupAssoc t L with
      | some w => some w
      | none => if k = t then some v else none := by
  induction L with
  | nil => simp [lookupAssoc]
  | cons p rest ih =>
    obtain ⟨k', v'⟩ := p
    simp only [List.cons_append, List.append_eq, lookupAssoc]
    by_cases h1 : k' = t
    · rw [if_pos h1, if_pos h1]
    · rw [if_neg h1, if_neg h1, ih]

theorem lastTextOpt_append (t : List Char) (ops : List (List Char × List Char))
    (p : List Char × List Char) :
    lastTextOpt t (ops ++ [p]) = if p.1 = t then some p.2 else lastTextOpt t ops := by
  unfold lastTextOpt
  rw [List.reverse_append]
  simp only [List.reverse_cons, List.reverse_nil, List.nil_append, List.singleton_append,
    List.find?_cons]
  by_cases h : p.1 = t
  · simp [h]
  · simp [h]

theorem lastTextOpt_eq_none_iff (t : List Char) (ops : List (List Char × List Char)) :
    lastTextOpt t ops = none ↔ t ∉ ops.map Prod.fst := by
  unfold lastTextOpt
  simp only [Option.map_eq_none', List.find?_eq_none, List.mem_reverse, List.mem_map,
    decide_eq_true_eq]
  constructor
  · rintro h ⟨p, hp, hpt⟩
    exact h p hp hpt
  · rintro h p hp hpt
    exact h ⟨p, hp, hpt⟩

theorem firstSeenAux_append (k : List Char) : ∀ (l : List (List Char)) (seen : List (List Char)),
    firstSeenAux seen (l ++ [k]) =
      firstSeenAux seen l ++ (if k ∈ seen ∨ k ∈ l then [] else [k]) := by
  intro l
  induction l with
  | nil =>
    intro seen
    simp only [List.nil_append, firstSeenAux]
    by_cases h : k ∈ seen
    · rw [if_pos h, if_pos (Or.inl h)]
    · rw [if_neg h, if_neg (by simp [h])]
  | cons x xs ih =>
    intro seen
    simp only [List.cons_append, List.append_eq, firstSeenAux]
    by_cases hx : x ∈ seen
    · rw [if_pos hx, if_pos hx, ih]
      by_cases hk : k ∈ seen ∨ k ∈ xs
      · rw [if_pos hk, if_pos (by rcases hk with h | h; exact Or.inl h; exact Or.inr (by simp [h]))]
      · rw [if_neg hk, if_neg (by
          rintro (h | h)
          · exact hk (Or.inl h)
          · rcases List.mem_cons.mp h with h1 | h1
            · exact hk (Or.inl (by rw [h1]; exact hx))
            · exact hk (Or.inr h1))]
    · rw [if_neg hx, if_neg hx, ih]
      by_cases hk : k ∈ seen ++ [x] ∨ k ∈ xs
      · rw [if_pos hk, if_pos (by
          rcases hk with h | h
          · rcases List.mem_append.mp h with h1 | h1
            · exact Or.inl h1
            · exact Or.inr (by simp at h1; simp [h1])
          · exact Or.inr (by simp [h]))]
        simp
      · rw [if_neg hk, if_neg (by
          rintro (h | h)
          · exact hk (Or.inl (List.mem_append.mpr (Or.inl h)))
          · rcases List.mem_cons.mp h with h1 | h1
            · exact hk (Or.inl (List.mem_append.mpr (Or.inr (by simp [h1]))))
            · exact hk (Or.inr h1))]
        simp

theorem firstSeenAux_subset : ∀ (l seen : List (List Char)) (x : List Char),
    x ∈ firstSeenAux seen l → x ∈ l := by
  intro l
  induction l with
  | nil => intro seen x hx; simp [firstSeenAux] at hx
  | cons k rest ih =>
    intro seen x hx
    simp only [firstSeenAux] at hx
    split at hx
    · exact List.mem_cons_of_mem _ (ih seen x hx)
    · rcases List.mem_cons.mp hx with h | h
      · exact h ▸ List.mem_cons_self _ _
      · exact List.mem_cons_of_mem _ (ih _ x h)

theorem runRegisters_inv (ops : List (List Char × List Char)) :
    (runRegisters ops).order = firstSeen (ops.map Prod.fst) ∧
    ∀ t, lookupAssoc t (runRegisters ops).styles = lastTextOpt t ops := by
  induction ops using List.reverseRecOn with
  | nil => exact ⟨rfl, fun t => rfl⟩
  | append_singleton ops p ih =>
    obtain ⟨iho, ihs⟩ := ih
    have hrun : runRegisters (ops ++ [p]) = (runRegisters ops).register p.1 p.2 := by
      unfold runRegisters
      rw [List.foldl_append]
      rfl
    have hmap : (ops ++ [p]).map Prod.fst = ops.map Prod.fst ++ [p.1] := by simp
    by_cases hmem : p.1 ∈ ops.map Prod.fst
    · -- occupied entry: text replaced in place, order unchanged
      have hsome : (lookupAssoc p.1 (runRegisters ops).styles).isSome := by
        rw [ihs p.1]
        rcases Option.eq_none_or_eq_some (lastTextOpt p.1 ops) with h | ⟨w, hw⟩
        · exact absurd ((lastTextOpt_eq_none_iff p.1 ops).mp h) (by simpa using hmem)
        · rw [hw]; rfl
      constructor
      · rw [hrun]
        unfold StyleRegistry.register
        rw [if_pos hsome]
        rw [hmap, iho]
        unfold firstSeen
        rw [firstSeenAux_append p.1 (ops.map Prod.fst) [], if_pos (Or.inr hmem)]
        simp
      · intro t
        rw [hrun]
        unfold StyleRegistry.register
        rw [if_pos hsome]
        show lookupAssoc t (updateAssoc p.1 p.2 (runRegisters ops).styles) = _
        rw [lookupAssoc_updateAssoc, lastTextOpt_append]
        by_cases ht : t = p.1
        · rw [if_pos ht, if_pos (by rw [ht])]
          rw [ihs p.1]
          rcases Option.eq_none_or_eq_some (lastTextOpt p.1 ops) with h | ⟨w, hw⟩
          · exact absurd ((lastTextOpt_eq_none_iff p.1 ops).mp h) (by simpa using hmem)
          · rw [hw]
        · rw [if_neg ht, if_neg (fun hc : p.1 = t => ht hc.symm), ihs t]
    · -- vacant entry: appended to both the map and the order sequence
      have hnone : lookupAssoc p.1 (runRegisters ops).styles = none := by
        rw [ihs p.1]
        exact (lastTextOpt_eq_none_iff p.1 ops).mpr hmem
      have hnotsome : ¬ (lookupAssoc p.1 (runRegisters ops).styles).isSome := by
        rw [hnone]
        simp
      constructor
      · rw [hrun]
        unfold StyleRegistry.register
        rw [if_neg hnotsome]
        show (runRegisters ops).order ++ [p.1] = _
        rw [hmap, iho]
        unfold firstSeen
        rw [firstSeenAux_append p.1 (ops.map Prod.fst) [], if_neg (by simpa using hmem)]
      · intro t
        rw [hrun]
        unfold StyleRegistry.register
        rw [if_neg hnotsome]
        show lookupAssoc t ((runRegisters ops).styles ++ [(p.1, p.2)]) = _
        rw [lookupAssoc_append_singleton, lastTextOpt_append, ihs t]
        by_cases ht : p.1 = t
        · rw [if_pos ht]
          have : lastTextOpt t ops = none :=
            (lastTextOpt_eq_none_iff t ops).mpr (ht ▸ hmem)
          rw [this]
          simp [ht]
        · rw [if_neg ht]
          rcases Option.eq_none_or_eq_some (lastTextOpt t ops) with h | ⟨w, hw⟩
          · rw [h]
            simp [ht]
          · rw [hw]
            simp [ht]

/-- The registry's `get_all_styles` implements the spec's description: for
any sequence of `register` calls, the output is the concatenation, in
first-seen order of the distinct tokens, of each token's most recently
registered text, each followed by one newline; empty when no entry exists. -/
theorem getAllStyles_spec (ops : List (List Char × List Char)) :
    (runRegisters ops).getAllStyles = specGetAll ops := by
  obtain ⟨ho, hs⟩ := runRegisters_inv ops
  unfold StyleRegistry.getAllStyles specGetAll
  rw [ho]
  by_cases hord : firstSeen (ops.map Prod.fst) = []
  · rw [if_pos hord, hord]
    simp
  · rw [if_neg hord]
    congr 1
    apply List.map_congr_left
    intro t ht
    rw [hs t]
    have htk : t ∈ ops.map Prod.fst := firstSeenAux_subset _ [] t ht
    have hsome : lastTextOpt t ops ≠ none := fun h =>
      (lastTextOpt_eq_none_iff t ops).mp h htk
    rcases Option.eq_none_or_eq_some (lastTextOpt t ops) with h | ⟨w, hw⟩
    · exact absurd h hsome
    · rw [hw]
      rfl

/-! ### Identifier generator: hash injectivity and base-62 correctness -/

theorem char_toNat_lt (c : Char) : c.toNat < 2 ^ 64 := by
  have h : c.toNat = c.val.toNat := rfl
  have := c.val.toNat_lt
  omega

theorem hashStep_lt (h : Nat) (c : Char) : hashStep h c < 2 ^ 64 :=
  Nat.mod_lt _ (by norm_num)

theorem foldl_hashStep_lt : ∀ (l : List Char) (s : Nat), s < 2 ^ 64 →
    l.foldl hashStep s < 2 ^ 64 := by
  intro l
  induction l with
  | nil => intro s hs; exact hs
  | cons c rest ih =>
    intro s _
    exact ih (hashStep s c) (hashStep_lt s c)

theorem hashStep_inj {h1 h2 : Nat} (c : Char) (hb1 : h1 < 2 ^ 64) (hb2 : h2 < 2 ^ 64)
    (he : hashStep h1 c = hashStep h2 c) : h1 = h2 := by
  have hco : (2 ^ 64 : Nat).gcd hashPrime = 1 := by decide
  have hx1 : h1 ^^^ c.toNat < 2 ^ 64 := Nat.xor_lt_two_pow hb1 (char_toNat_lt c)
  have hx2 : h2 ^^^ c.toNat < 2 ^ 64 := Nat.xor_lt_two_pow hb2 (char_toNat_lt c)
  have hmod : (h1 ^^^ c.toNat) * hashPrime ≡ (h2 ^^^ c.toNat) * hashPrime [MOD 2 ^ 64] := he
  have hcong := Nat.ModEq.cancel_right_of_coprime hco hmod
  have heq : h1 ^^^ c.toNat = h2 ^^^ c.toNat := by
    have := hcong
    unfold Nat.ModEq at this
    rw [Nat.mod_eq_of_lt hx1, Nat.mod_eq_of_lt hx2] at this
    exact this
  have e1 : h1 = (h1 ^^^ c.toNat) ^^^ c.toNat := (Nat.xor_cancel_right _ _).symm
  rw [e1, heq, Nat.xor_cancel_right]

theorem foldl_hashStep_ne : ∀ (l : List Char) (s1 s2 : Nat),
    s1 < 2 ^ 64 → s2 < 2 ^ 64 → s1 ≠ s2 →
    l.foldl hashStep s1 ≠ l.foldl hashStep s2 := by
  intro l
  induction l with
  | nil => intro s1 s2 _ _ hne; exact hne
  | cons c rest ih =>
    intro s1 s2 hb1 hb2 hne
    exact ih (hashStep s1 c) (hashStep s2 c) (hashStep_lt s1 c) (hashStep_lt s2 c)
      (fun hc => hne (hashStep_inj c hb1 hb2 hc))

theorem base62Char_val : ∀ k, k < 62 → base62Val (base62Char k) = k := by decide

theorem base62Char_alnum : ∀ k, k < 62 → (base62Char k).isAlphanum = true := by decide

theorem base62Char_ne_zero : ∀ k, k < 62 → 0 < k → ¬ base62Char k = '0' := by decide

theorem decodeBase62_append (xs : List Char) (d : Char) :
    decodeBase62 (xs ++ [d]) = decodeBase62 xs * 62 + base62Val d := by
  unfold decodeBase62
  rw [List.foldl_append]
  rfl

theorem decode_encodeLoop : ∀ n : Nat, n ≠ 0 →
    decodeBase62 (encodeBase62Loop n).reverse = n := by
  intro n
  induction n using Nat.strong_induction_on with
  | _ n ih =>
    intro hn
    rw [encodeBase62Loop_eq, if_neg hn, List.reverse_cons, decodeBase62_append,
      base62Char_val _ (Nat.mod_lt n (by omega))]
    by_cases h62 : n / 62 = 0
    · rw [h62, show encodeBase62Loop 0 = [] from rfl]
      show decodeBase62 [] * 62 + n % 62 = n
      have : decodeBase62 [] = 0 := rfl
      rw [this]
      omega
    · rw [ih (n / 62) (Nat.div_lt_self (Nat.pos_of_ne_zero hn) (by omega)) h62]
      omega

theorem decode_encode (n : Nat) : decodeBase62 (encodeBase62 n) = n := by
  unfold encodeBase62
  by_cases h : n = 0
  · rw [if_pos h, h]
    decide
  · rw [if_neg h]
    exact decode_encodeLoop n h

theorem encodeBase62_inj {a b : Nat} (h : encodeBase62 a = encodeBase62 b) : a = b := by
  rw [← decode_encode a, ← decode_encode b, h]

theorem encodeBase62Loop_ne_nil (n : Nat) (hn : n ≠ 0) : encodeBase62Loop n ≠ [] := by
  rw [encodeBase62Loop_eq, if_neg hn]
  simp

theorem encodeBase62Loop_getLast : ∀ n : Nat, n ≠ 0 →
    ∃ d, 0 < d ∧ d < 62 ∧ (encodeBase62Loop n).getLast? = some (base62Char d) := by
  intro n
  induction n using Nat.strong_induction_on with
  | _ n ih =>
    intro hn
    rw [encodeBase62Loop_eq, if_neg hn]
    by_cases h62 : n / 62 = 0
    · rw [h62, show encodeBase62Loop 0 = [] from rfl]
      exact ⟨n % 62, by omega, by omega, by simp⟩
    · obtain ⟨d, hd1, hd2, hd3⟩ :=
        ih (n / 62) (Nat.div_lt_self (Nat.pos_of_ne_zero hn) (by omega)) h62
      refine ⟨d, hd1, hd2, ?_⟩
      have hne := encodeBase62Loop_ne_nil (n / 62) h62
      cases hl : encodeBase62Loop (n / 62) with
      | nil => exact absurd hl hne
      | cons x xs =>
        rw [List.getLast?_cons_cons, ← hl, hd3]

theorem encodeBase62Loop_alnum : ∀ n : Nat, ∀ ch ∈ encodeBase62Loop n,
    ch.isAlphanum = true := by
  intro n
  induction n using Nat.strong_induction_on with
  | _ n ih =>
    intro ch hch
    rw [encodeBase62Loop_eq] at hch
    split at hch
    · simp at hch
    · rename_i hn
      rcases List.mem_cons.mp hch with h | h
      · rw [h]
        exact base62Char_alnum _ (Nat.mod_lt n (by omega))
      · exact ih (n / 62) (Nat.div_lt_self (Nat.pos_of_ne_zero hn) (by omega)) ch h

theorem encodeBase62_alnum (n : Nat) : ∀ ch ∈ encodeBase62 n, ch.isAlphanum = true := by
  intro ch hch
  unfold encodeBase62 at hch
  split at hch
  · simp only [List.mem_singleton] at hch
    rw [hch]
    decide
  · exact encodeBase62Loop_alnum n ch (List.mem_reverse.mp hch)

theorem encodeBase62_head_ne_zero (n : Nat) (hn : n ≠ 0) :
    (encodeBase62 n).head? ≠ some '0' := by
  unfold encodeBase62
  rw [if_neg hn, List.head?_reverse]
  obtain ⟨d, hd1, hd2, hd3⟩ := encodeBase62Loop_getLast n hn
  rw [hd3]
  intro hcontra
  simp only [Option.some_inj] at hcontra
  exact base62Char_ne_zero d hd2 hd1 hcontra

/-! ### Split correctness and the no-closing-brace rule shape -/

theorem splitComma_join : ∀ l : List Char, joinSep [','] (splitComma l) = l := by
  intro l
  induction l with
  | nil => rfl
  | cons c rest ih =>
    simp only [splitComma]
    by_cases hc : c = ','
    · rw [if_pos hc]
      obtain ⟨p, ps, hps⟩ : ∃ p ps, splitComma rest = p :: ps := by
        cases h : splitComma rest with
        | nil => exact absurd h (splitComma_ne_nil rest)
        | cons p ps => exact ⟨p, ps, rfl⟩
      rw [hps]
      rw [hps] at ih
      show [] ++ [','] ++ joinSep [','] (p :: ps) = c :: rest
      rw [ih, hc]
      rfl
    · rw [if_neg hc]
      obtain ⟨p, ps, hps⟩ : ∃ p ps, splitComma rest = p :: ps := by
        cases h : splitComma rest with
        | nil => exact absurd h (splitComma_ne_nil rest)
        | cons p ps => exact ⟨p, ps, rfl⟩
      rw [hps]
      rw [hps] at ih
      cases ps with
      | nil =>
        show c :: p = c :: rest
        rw [← ih]
        rfl
      | cons q qs =>
        show (c :: p) ++ [','] ++ joinSep [','] (q :: qs) = c :: rest
        rw [← ih]
        rfl

theorem splitComma_length : ∀ l : List Char, (splitComma l).length = l.count ',' + 1 := by
  intro l
  induction l with
  | nil => simp [splitComma]
  | cons c rest ih =>
    simp only [splitComma]
    by_cases hc : c = ','
    · rw [if_pos hc]
      simp only [List.length_cons, ih, List.count_cons]
      simp [hc]
    · rw [if_neg hc]
      obtain ⟨p, ps, hps⟩ : ∃ p ps, splitComma rest = p :: ps := by
        cases h : splitComma rest with
        | nil => exact absurd h (splitComma_ne_nil rest)
        | cons p ps => exact ⟨p, ps, rfl⟩
      rw [hps]
      rw [hps] at ih
      simp only [List.length_cons] at ih ⊢
      rw [List.count_cons]
      simp [hc, ih]

theorem declsOf_no_close (d : List Char) (h : ('}' : Char) ∉ d) : declsOf d = trim d := by
  unfold declsOf
  rw [if_neg h]

/-- Shape of a successfully scoped rule whose remainder after the first `{`
contains no closing brace: the whole remainder, trimmed, becomes the
declaration text. -/
theorem scopeRule_decomp_noclose (rule scope pre d : List Char)
    (hd : trim rule = pre ++ '{' :: d) (hpre : '{' ∉ pre) (hnc : ('}' : Char) ∉ d) :
    scopeRule rule scope =
      some ((scopeSelector (trim pre) scope).1 ++
              ([' ', '{', ' '] ++ trim d ++ [' ', '}']),
            (scopeSelector (trim pre) scope).2) := by
  have hprop : ∀ x ∈ pre, (fun y => decide (y ≠ '{')) x = true := by
    intro x hx
    simp only [decide_eq_true_eq, ne_eq]
    intro hcontra
    exact hpre (hcontra ▸ hx)
  have hdrop : (trim rule).dropWhile (· ≠ '{') = '{' :: d := by
    rw [hd, dropWhile_all_append hprop]
    simp [List.dropWhile_cons]
  have htake : (trim rule).takeWhile (· ≠ '{') = pre := by
    rw [hd, takeWhile_all_append hprop]
    simp [List.takeWhile_cons]
  have hne : trim rule ≠ [] := by
    rw [hd]
    simp
  unfold scopeRule
  rw [if_neg hne, hdrop, htake]
  dsimp only
  rw [declsOf_no_close d hnc]

theorem declsOf_last (d e : List Char) (he : ('}' : Char) ∉ e) :
    declsOf (d ++ '}' :: e) = trim d := by
  have h1 : ('}' : Char) ∈ d ++ '}' :: e := by simp
  rw [declsOf, if_pos h1]
  have hrev : (d ++ '}' :: e).reverse = e.reverse ++ '}' :: d.reverse := by
    simp
  rw [hrev]
  have hprop : ∀ x ∈ e.reverse, (fun y => decide (y ≠ '}')) x = true := by
    intro x hx
    simp only [decide_eq_true_eq, ne_eq]
    intro hc
    exact he (hc ▸ List.mem_reverse.mp hx)
  rw [dropWhile_all_append hprop]
  simp [List.dropWhile_cons]

/-- Shape of a successfully scoped rule in the general case: the trimmed
text decomposes around the first `{` and the LAST `}`, with arbitrary
`}`-free text `e` allowed after that last closing brace (the `rfind('}')`
in scope_rule discards it). -/
theorem scopeRule_decomp_last (rule scope pre d e : List Char)
    (hd : trim rule = pre ++ '{' :: (d ++ '}' :: e)) (hpre : '{' ∉ pre)
    (he : ('}' : Char) ∉ e) :
    scopeRule rule scope =
      some ((scopeSelector (trim pre) scope).1 ++
              ([' ', '{', ' '] ++ trim d ++ [' ', '}']),
            (scopeSelector (trim pre) scope).2) := by
  have hprop : ∀ x ∈ pre, (fun y => decide (y ≠ '{')) x = true := by
    intro x hx
    simp only [decide_eq_true_eq, ne_eq]
    intro hcontra
    exact hpre (hcontra ▸ hx)
  have hdrop : (trim rule).dropWhile (· ≠ '{') = '{' :: (d ++ '}' :: e) := by
    rw [hd, dropWhile_all_append hprop]
    simp [List.dropWhile_cons]
  have htake : (trim rule).takeWhile (· ≠ '{') = pre := by
    rw [hd, takeWhile_all_append hprop]
    simp [List.takeWhile_cons]
  have hne : trim rule ≠ [] := by
    rw [hd]
    simp
  unfold scopeRule
  rw [if_neg hne, hdrop, htake]
  dsimp only
  rw [declsOf_last d e he]

theorem mem_last_split (a : Char) (l : List Char) (h : a ∈ l) :
    ∃ d e, l = d ++ a :: e ∧ a ∉ e := by
  obtain ⟨pre, rest, h1, h2⟩ := mem_first_split a l.reverse (List.mem_reverse.mpr h)
  refine ⟨rest.reverse, pre.reverse, ?_, fun hc => h2 (List.mem_reverse.mp hc)⟩
  have hrev := congrArg List.reverse h1
  rw [List.reverse_reverse] at hrev
  rw [hrev]
  simp

/-! ### Claims -/

/-- C1 counterexample: the selector rewriter does NOT split only on
top-level commas.  On the selector `[a,b]` — a single attribute selector
containing a comma — a top-level-only split would keep one branch and the
attribute pass-through would leave it unchanged, but `scope_selector`
splits inside the brackets. -/
theorem C1_counterexample :
    (scopeSelector "[a,b]".data "sc".data).1 ≠
      joinSep [',', ' '] ((splitTopLevel "[a,b]".data).map
        (fun b => (scopeSingleSelector "sc".data (trim b) true).1)) := by decide

/-- C1 (corrected): for every selector containing a comma and every scope
token, the rewriter splits at EVERY comma — including commas inside
attribute brackets — trims each piece, rewrites each independently with the
single-selector rewriter, and rejoins with `", "`; the split is a faithful
partition: rejoining the pieces with `","` restores the selector, and there
is exactly one piece per comma plus one. -/
theorem C1_selector_list_rewrite (sel scope : List Char) (h : ',' ∈ sel) :
    (scopeSelector sel scope).1 =
      joinSep [',', ' '] ((splitComma sel).map
        (fun b => (scopeSingleSelector scope (trim b) true).1)) ∧
    joinSep [','] (splitComma sel) = sel ∧
    (splitComma sel).length = sel.count ',' + 1 := by
  refine ⟨?_, splitComma_join sel, splitComma_length sel⟩
  have h1 : (scopeSelector sel scope).1 =
      joinSep [',', ' '] (((splitComma sel).map
        (fun s => scopeSingleSelector scope (trim s) true)).map Prod.fst) := by
    unfold scopeSelector
    rw [if_pos h]
  rw [h1, List.map_map]
  rfl

theorem C1_witness :
    (',' ∈ (".btn, .button".data : List Char)) ∧
    (scopeSelector ".btn, .button".data "sc_xyz".data).1 =
      joinSep [',', ' '] ((splitComma ".btn, .button".data).map
        (fun b => (scopeSingleSelector "sc_xyz".data (trim b) true).1)) :=
  ⟨by decide,
   (C1_selector_list_rewrite ".btn, .button".data "sc_xyz".data (by decide)).1⟩

/-- C2: for every finite sequence of `register` calls on an empty registry,
`get_all_styles` returns the concatenation, in first-seen order of the
distinct tokens, of each token's most recently registered text, each
followed by exactly one newline, and the empty string when no entry
exists; re-registering a token replaces its text without moving it. -/
theorem C2_registry_get_all (ops : List (List Char × List Char)) :
    (runRegisters ops).getAllStyles = specGetAll ops :=
  getAllStyles_spec ops

/-- C3: `generate_hash` returns `"sc_"` followed by the base-62 encoding of
the 64-bit hash of `origin ++ "::" ++ content` (or of `content` alone when
there is no origin); the encoding is most-significant-digit first with the
`0-9a-zA-Z` alphabet (witnessed by the value round-trip through
`decodeBase62`), renders zero as `"0"`, has no leading zero otherwise, and
every character after the prefix is alphanumeric.  Determinism is
intrinsic: the function is pure. -/
theorem C3_generate_hash (content : List Char) (origin : Option (List Char)) (n : Nat) :
    generateHash content origin =
      "sc_".data ++ encodeBase62 (xxh3_64
        (match origin with
         | some p => (p ++ "::".data) ++ content
         | none => content)) ∧
    decodeBase62 (encodeBase62 n) = n ∧
    encodeBase62 0 = ['0'] ∧
    (n ≠ 0 → (encodeBase62 n).head? ≠ some '0') ∧
    (∀ ch ∈ (generateHash content origin).drop 3, ch.isAlphanum = true) := by
  refine ⟨?_, decode_encode n, rfl, encodeBase62_head_ne_zero n, ?_⟩
  · cases origin <;> rfl
  · intro ch hch
    rcases origin with _ | p
    · rw [show (generateHash content none).drop 3
          = encodeBase62 (xxh3_64 content) from rfl] at hch
      exact encodeBase62_alnum _ ch hch
    · rw [show (generateHash content (some p)).drop 3
          = encodeBase62 (xxh3_64 ((p ++ "::".data) ++ content)) from rfl] at hch
      exact encodeBase62_alnum _ ch hch

theorem C3_witness :
    (62 : Nat) ≠ 0 ∧ (encodeBase62 62).head? ≠ some '0' :=
  ⟨by decide, (C3_generate_hash "x".data none 62).2.2.2.1 (by decide)⟩

/-- C4 counterexample: the brace-balance claim fails as universally stated.
With minification on, stripping the comment in `.a{//**/*}` leaves a fresh
`/*` in the declarations, which the minifier then treats as an unterminated
comment, swallowing the closing brace; and a scope token containing `{`
leaks braces into the output even without minification. -/
theorem C4_counterexample :
    (parseAndScope ['.', 'a', '{', '/', '/', '*', '*', '/', '*', '}'] "sc".data
        true).scopedStr.count '{' ≠
      (parseAndScope ['.', 'a', '{', '/', '/', '*', '*', '/', '*', '}'] "sc".data
        true).scopedStr.count '}' ∧
    (parseAndScope ['.', 'a', '{', 'b', '}'] ['{'] false).scopedStr.count '{' ≠
      (parseAndScope ['.', 'a', '{', 'b', '}'] ['{'] false).scopedStr.count '}' := by
  decide

/-- C4 (corrected): for every input string and every scope token containing
neither `{` nor `}`, the output of `parse_and_scope` with minify off
contains equally many `{` and `}` characters. -/
theorem C4_brace_balance (css scope : List Char)
    (hso : '{' ∉ scope) (hsc : '}' ∉ scope) :
    (parseAndScope css scope false).scopedStr.count '{'
      = (parseAndScope css scope false).scopedStr.count '}' :=
  parseAndScope_balance css scope hso hsc

theorem C4_witness :
    ('{' ∉ ("sc".data : List Char)) ∧ ('}' ∉ ("sc".data : List Char)) ∧
    (parseAndScope ['.', 'a', '{', 'b', '}'] "sc".data false).scopedStr.count '{'
      = (parseAndScope ['.', 'a', '{', 'b', '}'] "sc".data false).scopedStr.count '}' :=
  ⟨by decide, by decide,
   C4_brace_balance ['.', 'a', '{', 'b', '}'] "sc".data (by decide) (by decide)⟩

/-- C5 counterexample: the minified output can contain both `*/` and `/*`.
A declaration text `*/` survives the splitter and the minifier verbatim,
and comment stripping can leave a fresh `/` adjacent to a comment whose
removal exposes a following `*`. -/
theorem C5_counterexample :
    ['*', '/'] <:+:
      (parseAndScope ['.', 'a', '{', '*', '/', '}'] "sc".data true).scopedStr ∧
    ['/', '*'] <:+:
      (parseAndScope
        ['.', 'a', '{', '/', '/', '/', '*', 'x', '*', '/', '*', 'q', '*', '/', '/', '*',
          'y', '*', '/', '*', '}'] "sc".data true).scopedStr := by
  decide

/-- C5 (corrected): for every input string and scope token, the output of
`parse_and_scope` with minify on is no longer than the output with minify
off on the same input.  The second half of the original claim — that the
minified output contains no `/*` or `*/` substring — is refuted by the
counterexample. -/
theorem C5_minify_length (css scope : List Char) :
    (parseAndScope css scope true).scopedStr.length
      ≤ (parseAndScope css scope false).scopedStr.length :=
  parseAndScope_minify_length css scope

/-- C6: for every rule whose trimmed text is non-empty and contains a `{`,
the scoper's output is exactly
`scoped_selector ++ " { " ++ trim d ++ " }"`, one space on each side of
each brace, where `d` is the original text strictly between the first `{`
and the LAST `}` — any `}`-free text after that last closer is discarded —
or everything after the first `{` when no `}` follows; the declaration
text is taken verbatim from the rule and untouched by the selector
rewriting pass.  The final conjunct shows these two decompositions cover
every trimmed rule containing a `{`. -/
theorem C6_scope_rule_shape (rule scope pre d e : List Char) :
    (trim rule = pre ++ '{' :: (d ++ '}' :: e) → '{' ∉ pre → ('}' : Char) ∉ e →
      scopeRule rule scope =
        some ((scopeSelector (trim pre) scope).1 ++
                ([' ', '{', ' '] ++ trim d ++ [' ', '}']),
              (scopeSelector (trim pre) scope).2)) ∧
    (trim rule = pre ++ '{' :: d → '{' ∉ pre → ('}' : Char) ∉ d →
      scopeRule rule scope =
        some ((scopeSelector (trim pre) scope).1 ++
                ([' ', '{', ' '] ++ trim d ++ [' ', '}']),
              (scopeSelector (trim pre) scope).2)) ∧
    (∀ t : List Char, '{' ∈ t →
      ∃ pre' rest' : List Char, t = pre' ++ '{' :: rest' ∧ '{' ∉ pre' ∧
        (('}' : Char) ∉ rest' ∨
          ∃ d' e' : List Char, rest' = d' ++ '}' :: e' ∧ ('}' : Char) ∉ e')) :=
  ⟨fun h1 h2 h3 => scopeRule_decomp_last rule scope pre d e h1 h2 h3,
   fun h1 h2 h3 => scopeRule_decomp_noclose rule scope pre d h1 h2 h3,
   fun t ht => by
     obtain ⟨p', r', hs, hp⟩ := mem_first_split '{' t ht
     refine ⟨p', r', hs, hp, ?_⟩
     by_cases hc : ('}' : Char) ∈ r'
     · obtain ⟨d', e', hde, hne⟩ := mem_last_split '}' r' hc
       exact Or.inr ⟨d', e', hde, hne⟩
     · exact Or.inl hc⟩

theorem C6_witness :
    trim ['.', 'a', '{', 'x', '}', 'y'] = ".a".data ++ '{' :: (['x'] ++ '}' :: ['y']) ∧
    scopeRule ['.', 'a', '{', 'x', '}', 'y'] "sc".data =
      some ((scopeSelector (trim ".a".data) "sc".data).1 ++
              ([' ', '{', ' '] ++ trim ['x'] ++ [' ', '}']),
            (scopeSelector (trim ".a".data) "sc".data).2) :=
  ⟨by decide,
   (C6_scope_rule_shape ['.', 'a', '{', 'x', '}', 'y'] "sc".data ".a".data
      ['x'] ['y']).1 (by decide) (by decide) (by decide)⟩

/-- C7: a rule whose trimmed text contains no `{` is rejected with `none`
(no error is possible: the scoper is a total function), and the document
assembler silently omits any rule the scoper rejects while processing the
remaining rules unchanged. -/
theorem C7_malformed_dropped :
    (∀ rule scope : List Char, '{' ∉ trim rule → scopeRule rule scope = none) ∧
    (∀ (pre post : List (List Char)) (r scope : List Char) (m : Bool),
      scopeRule r scope = none →
      assembleRules (pre ++ r :: post) scope m = assembleRules (pre ++ post) scope m) :=
  ⟨scopeRule_none_of_no_brace, assembleRules_drop⟩

theorem C7_witness :
    ('{' ∉ trim "oops".data) ∧
    scopeRule "oops".data "sc".data = none ∧
    assembleRules [['.', 'a', '{', 'b', '}'], "oops".data, ['.', 'c', '{', 'd', '}']]
        "sc".data false
      = assembleRules [['.', 'a', '{', 'b', '}'], ['.', 'c', '{', 'd', '}']] "sc".data false :=
  ⟨by decide,
   C7_malformed_dropped.1 "oops".data "sc".data (by decide),
   C7_malformed_dropped.2 [['.', 'a', '{', 'b', '}']] [['.', 'c', '{', 'd', '}']]
     "oops".data "sc".data false (by decide)⟩

/-- C8: the (spec-modelled) hash separates `"a"` from `"b"` with no origin,
and for EVERY content string the hashes under origins `"path1"` and
`"path2"` differ: every mixing step is a bijection of the 64-bit state for
a fixed input character, so the differing states reached after the two
origin prefixes can never reconverge on a common suffix. -/
theorem C8_hash_sensitivity :
    generateHash "a".data none ≠ generateHash "b".data none ∧
    ∀ c : List Char,
      generateHash c (some "path1".data) ≠ generateHash c (some "path2".data) := by
  constructor
  · decide
  · intro c hcontra
    unfold generateHash at hcontra
    have henc := List.append_cancel_left hcontra
    have hhash := encodeBase62_inj henc
    unfold xxh3_64 at hhash
    rw [List.foldl_append, List.foldl_append] at hhash
    have hseed : hashSeed < 2 ^ 64 := by decide
    have hs1 : List.foldl hashStep hashSeed ("path1".data ++ "::".data) ≠
        List.foldl hashStep hashSeed ("path2".data ++ "::".data) := by decide
    exact foldl_hashStep_ne c _ _
      (foldl_hashStep_lt _ hashSeed hseed) (foldl_hashStep_lt _ hashSeed hseed)
      hs1 hhash

/-- C9: every rule emitted by the splitter is non-empty after trimming and
has equally many `{` and `}` characters; characters inside comment spans
never enter a rule (the splitter factors through `stripComments`); and the
emitted sequence preserves source order: the comment-free stream decomposes
as the concatenation of consecutive chunks, in order, whose trims are
exactly the emitted rules, followed by the discarded trailing leftover. -/
theorem C9_splitter_invariants (css : List Char) :
    parseCssRules css = parseRulesNCAux (stripComments css) 0 [] ∧
    (∃ (us : List (List Char)) (leftover : List Char),
      stripComments css = us.flatten ++ leftover ∧ parseCssRules css = us.map trim) ∧
    (∀ r ∈ parseCssRules css, trim r ≠ [] ∧ r.count '{' = r.count '}') := by
  refine ⟨parseCssRules_eq_nc css, ?_, ?_⟩
  · obtain ⟨us, lo, h1, h2⟩ := parseRulesNCAux_decomp (stripComments css) 0 []
    refine ⟨us, lo, by simpa using h1, ?_⟩
    rw [parseCssRules_eq_nc css]
    exact h2
  · intro r hr
    obtain ⟨_, hbal, hne, htrim⟩ := parseCssRules_props css r hr
    refine ⟨?_, hbal⟩
    rw [htrim]
    exact hne

theorem C9_witness :
    (['.', 'a', '{', 'b', '}'] ∈ parseCssRules ['.', 'a', '{', 'b', '}']) ∧
    trim ['.', 'a', '{', 'b', '}'] ≠ [] ∧
    List.count '{' ['.', 'a', '{', 'b', '}'] = List.count '}' ['.', 'a', '{', 'b', '}'] :=
  ⟨by decide,
   ((C9_splitter_invariants ['.', 'a', '{', 'b', '}']).2.2
     ['.', 'a', '{', 'b', '}'] (by decide)).1,
   ((C9_splitter_invariants ['.', 'a', '{', 'b', '}']).2.2
     ['.', 'a', '{', 'b', '}'] (by decide)).2⟩

/-- C10: every class name in the set returned by `parse_and_scope` is
non-empty and made only of alphanumerics, `-` or `_`; the id branch and the
element branch record nothing into the set; and a `.` or `#` marker
followed by no identifier character emits nothing at all — the marker is
dropped from the output and the input continues unchanged. -/
theorem C10_class_name_set :
    (∀ (css scope : List Char) (m : Bool), ∀ n ∈ (parseAndScope css scope m).classNames,
      n ≠ [] ∧ ∀ ch ∈ n, identChar ch = true) ∧
    (∀ (scope rest : List Char) (st : Bool), (sssStep scope '#' rest st).names = []) ∧
    (∀ (scope rest : List Char) (c : Char), c.isAlpha = true →
      (sssStep scope c rest true).names = []) ∧
    (∀ (scope rest : List Char) (st : Bool) (c : Char), identChar c = false →
      sssStep scope '.' (c :: rest) st =
        { out := [], names := [], rest := c :: rest, atStart := false } ∧
      sssStep scope '#' (c :: rest) st =
        { out := [], names := [], rest := c :: rest, atStart := false }) := by
  refine ⟨fun css scope m => parseAndScope_names css scope m, ?_, ?_, ?_⟩
  · intro scope rest st
    simp [sssStep]
  · intro scope rest c hc
    have h1 : ¬ (c = '.') := fun h => by subst h; exact absurd hc (by decide)
    simp only [sssStep]
    split_ifs
    all_goals first
      | rfl
      | exact absurd (by assumption : c = '.') h1
  · intro scope rest st c hc
    constructor
    · simp [sssStep, List.takeWhile_cons, List.dropWhile_cons, hc]
    · simp [sssStep, List.takeWhile_cons, List.dropWhile_cons, hc]

theorem C10_witness :
    ("btn".data ∈ (parseAndScope ['.', 'b', 't', 'n', '{', 'x', '}']
        "sc".data false).classNames) ∧
    ("btn".data : List Char) ≠ [] ∧
    (∀ ch ∈ ("btn".data : List Char), identChar ch = true) ∧
    identChar ':' = false ∧
    sssStep "sc".data '.' [':'] true =
      { out := [], names := [], rest := [':'], atStart := false } :=
  ⟨by decide,
   (C10_class_name_set.1 ['.', 'b', 't', 'n', '{', 'x', '}'] "sc".data false
     "btn".data (by decide)).1,
   (C10_class_name_set.1 ['.', 'b', 't', 'n', '{', 'x', '}'] "sc".data false
     "btn".data (by decide)).2,
   by decide,
   (C10_class_name_set.2.2.2 "sc".data [] true ':' (by decide)).1⟩

end DioxusStyle
